import Mathlib

/-!
Verification of the TheoryConsistentDecisionDiagrams repository.

This file gives a shallow embedding, in Lean 4, of the pieces of the
repository that the specification claims talk about:

* the sequential string generator (src/theorydd/util/_string_generator.py),
* pysmt formulas, atoms and the formula helpers (src/theorydd/formula.py),
* the lemma extractor's fresh-atom computation
  (src/theorydd/solvers/lemma_extractor.py),
* the BDD variable-ordering helpers and the T-BDD construction
  (src/theorydd/tdd/theory_bdd.py, src/theorydd/tdd/theory_dd.py),
* the T-SDD counting and model-picking operations
  (src/theorydd/tdd/theory_sdd.py),
* the disjoint-set structure and the atom partitioner
  (src/theorydd/util/disjoint_set.py, formula.get_atom_partitioning).

External engines (CUDD BDDs via the dd package, SDDs via pysdd, the pysmt
library itself) are modelled by small executable Lean structures exposing
exactly the interface behaviour the repository relies on.  Machine
integers of the Python source are modelled as Nat (they never overflow in
the modelled code paths); Python dictionaries as association lists;
Python sets as duplicate-free lists; code paths that can raise are
Option- or Except-valued.
-/

/- ---------------------------------------------------------------------
   Section 1: the sequential string generator
   (src/theorydd/util/_string_generator.py)
--------------------------------------------------------------------- -/

/-- Translation of the helper _char_from_remainder: matches an integer
remainder with the corresponding lowercase letter, none above 25. -/
def char_from_remainder (remainder : Nat) : Option Char :=
  match remainder with
  | 0 => some 'a'
  | 1 => some 'b'
  | 2 => some 'c'
  | 3 => some 'd'
  | 4 => some 'e'
  | 5 => some 'f'
  | 6 => some 'g'
  | 7 => some 'h'
  | 8 => some 'i'
  | 9 => some 'j'
  | 10 => some 'k'
  | 11 => some 'l'
  | 12 => some 'm'
  | 13 => some 'n'
  | 14 => some 'o'
  | 15 => some 'p'
  | 16 => some 'q'
  | 17 => some 'r'
  | 18 => some 's'
  | 19 => some 't'
  | 20 => some 'u'
  | 21 => some 'v'
  | 22 => some 'w'
  | 23 => some 'x'
  | 24 => some 'y'
  | 25 => some 'z'
  | _ => none

/-- Translation of _concatenate_string_array: the Python code reverses the
array of one-character strings and concatenates it.  Characters stand for
the one-character strings of the source. -/
def concatenate_string_array (array : List Char) : String :=
  String.mk array.reverse

/-- The while loop of SequentialStringGenerator.next_string: starting from
the quotient of the first divmod, repeatedly takes divmod (result - 1) 26
while result is positive, collecting the characters least significant
first. -/
def next_string_loop (result : Nat) : List (Option Char) :=
  if h : 0 < result then
    char_from_remainder ((result - 1) % 26) :: next_string_loop ((result - 1) / 26)
  else
    []
termination_by result
decreasing_by
  exact Nat.lt_of_le_of_lt (Nat.div_le_self _ _) (Nat.sub_lt h Nat.one_pos)

/-- Translation of SequentialStringGenerator.next_string for a given value
of the serial counter.  Returns none exactly when the Python code would
crash on a none character (this never happens: every remainder is < 26). -/
def next_string (string_serial : Nat) : Option String :=
  let str_builder : List (Option Char) :=
    char_from_remainder (string_serial % 26) :: next_string_loop (string_serial / 26)
  (str_builder.mapM id).map concatenate_string_array

/-- The state of a SequentialStringGenerator: the _string_serial counter,
initialized to 0. -/
structure SequentialStringGenerator where
  string_serial : Nat
deriving DecidableEq, Repr

/-- A fresh generator, as built by the Python constructor. -/
def SequentialStringGenerator.fresh : SequentialStringGenerator := ⟨0⟩

/-- One call of next_string on the generator: produces the string for the
current serial and increments the serial. -/
def SequentialStringGenerator.next (g : SequentialStringGenerator) :
    Option String × SequentialStringGenerator :=
  (next_string g.string_serial, ⟨g.string_serial + 1⟩)

/-- The generator after k calls of next_string. -/
def SequentialStringGenerator.after (g : SequentialStringGenerator) :
    Nat → SequentialStringGenerator
  | 0 => g
  | k + 1 => (SequentialStringGenerator.after g k).next.2

/-- The output of the n-th call (0-based) of next_string on a fresh
generator. -/
def nth_call (n : Nat) : Option String :=
  (SequentialStringGenerator.fresh.after n).next.1

/-- The reference sequence of the specification, a, b, ..., z, aa, ab, ...,
defined by repeated incrementing: the next string after s increments the
last letter, turning trailing z into a with carry, and prepends an a when
every letter was z.  The digit lists here are least significant first. -/
def spec_incr : List Char → List Char
  | [] => ['a']
  | c :: rest => if c = 'z' then 'a' :: spec_incr rest else Char.ofNat (c.toNat + 1) :: rest

/-- Least-significant-first letter list of the n-th word of the reference
sequence a, b, ..., z, aa, ab, ... -/
def spec_word : Nat → List Char
  | 0 => ['a']
  | n + 1 => spec_incr (spec_word n)

/-- The n-th string of the specification's sequence a, b, ..., z, aa, ... -/
def spec_seq (n : Nat) : String :=
  String.mk (spec_word n).reverse

/-- Total character table: the character for a remainder below 26, with a
default that is never used on the reachable remainders. -/
def char_total (remainder : Nat) : Char :=
  (char_from_remainder remainder).getD 'a'

/-- Total version of next_string_loop, producing the characters directly;
next_string_loop is shown to be its image under some. -/
def next_string_loop_total (result : Nat) : List Char :=
  if h : 0 < result then
    char_total ((result - 1) % 26) :: next_string_loop_total ((result - 1) / 26)
  else
    []
termination_by result
decreasing_by
  exact Nat.lt_of_le_of_lt (Nat.div_le_self _ _) (Nat.sub_lt h Nat.one_pos)

/-- The least-significant-first character list built by next_string for a
given serial. -/
def next_string_total (string_serial : Nat) : List Char :=
  char_total (string_serial % 26) :: next_string_loop_total (string_serial / 26)

lemma char_from_remainder_eq_some :
    ∀ r, r < 26 → char_from_remainder r = some (char_total r) := by
  decide

lemma next_string_loop_eq_total (result : Nat) :
    next_string_loop result = (next_string_loop_total result).map some := by
  rw [next_string_loop, next_string_loop_total]
  split
  case isTrue h =>
    rw [List.map_cons, next_string_loop_eq_total ((result - 1) / 26),
      char_from_remainder_eq_some _ (Nat.mod_lt _ (by omega))]
  case isFalse h => simp
termination_by result
decreasing_by
  exact Nat.lt_of_le_of_lt (Nat.div_le_self _ _) (Nat.sub_lt (by omega) Nat.one_pos)

lemma mapM_loop_some (l acc : List Char) :
    List.mapM.loop (m := Option) id (l.map some) acc = some (acc.reverse ++ l) := by
  induction l generalizing acc with
  | nil => simp [List.mapM.loop]
  | cons c rest ih => simp [List.mapM.loop, ih]

lemma mapM_id_map_some (l : List Char) :
    ((l.map some).mapM id : Option (List Char)) = some l := by
  show List.mapM.loop id (l.map some) [] = some l
  rw [mapM_loop_some]
  rfl

/-- next_string never hits the crashing none branch: it produces exactly
the string of the reversed total character list. -/
lemma next_string_eq_total (n : Nat) :
    next_string n = some (String.mk (next_string_total n).reverse) := by
  unfold next_string
  rw [next_string_loop_eq_total, char_from_remainder_eq_some _ (Nat.mod_lt _ (by omega))]
  show (((next_string_total n).map some).mapM id).map concatenate_string_array = _
  rw [mapM_id_map_some]
  rfl

/-- Numeric value of a character in the a..z table. -/
def char_value (c : Char) : Nat := c.toNat - 'a'.toNat

/-- Value recovered from a least-significant-first character list produced
by next_string_loop_total. -/
def loop_value : List Char → Nat
  | [] => 0
  | c :: rest => 1 + char_value c + 26 * loop_value rest

lemma char_value_char_total : ∀ r, r < 26 → char_value (char_total r) = r := by
  decide

lemma char_total_ne_z : ∀ r, r < 25 → char_total r ≠ 'z' := by
  decide

lemma char_total_step :
    ∀ r, r < 25 → Char.ofNat ((char_total r).toNat + 1) = char_total (r + 1) := by
  decide

lemma loop_value_total (result : Nat) :
    loop_value (next_string_loop_total result) = result := by
  rw [next_string_loop_total]
  split
  case isTrue h =>
    rw [loop_value, loop_value_total ((result - 1) / 26),
      char_value_char_total _ (Nat.mod_lt _ (by omega))]
    omega
  case isFalse h =>
    rw [loop_value]
    omega
termination_by result
decreasing_by
  exact Nat.lt_of_le_of_lt (Nat.div_le_self _ _) (Nat.sub_lt (by omega) Nat.one_pos)

lemma next_string_total_injective {m n : Nat}
    (h : next_string_total m = next_string_total n) : m = n := by
  unfold next_string_total at h
  have hm : char_value (char_total (m % 26)) = char_value (char_total (n % 26)) := by
    rw [List.cons.injEq] at h
    rw [h.1]
  rw [char_value_char_total _ (Nat.mod_lt _ (by omega)),
    char_value_char_total _ (Nat.mod_lt _ (by omega))] at hm
  have hl : loop_value (next_string_loop_total (m / 26)) =
      loop_value (next_string_loop_total (n / 26)) := by
    rw [List.cons.injEq] at h
    rw [h.2]
  rw [loop_value_total, loop_value_total] at hl
  omega

/-- Incrementing the character list commutes with the loop builder: the
loop digits of result + 1 are the spec increment of those of result. -/
lemma spec_incr_loop (result : Nat) :
    spec_incr (next_string_loop_total result) = next_string_loop_total (result + 1) := by
  rw [next_string_loop_total]
  split
  case isTrue h =>
    by_cases hz : (result - 1) % 26 = 25
    · have hcz : char_total ((result - 1) % 26) = 'z' := by rw [hz]; rfl
      rw [spec_incr, if_pos hcz, spec_incr_loop ((result - 1) / 26)]
      conv_rhs => rw [next_string_loop_total]
      rw [dif_pos (by omega)]
      have h1 : (result + 1 - 1) % 26 = 0 := by omega
      have h2 : (result + 1 - 1) / 26 = (result - 1) / 26 + 1 := by omega
      rw [h1, h2]
      rfl
    · have hr : (result - 1) % 26 < 25 := by
        have := Nat.mod_lt (result - 1) (y := 26) (by omega)
        omega
      have hcz : char_total ((result - 1) % 26) ≠ 'z' := char_total_ne_z _ hr
      have hstep : Char.ofNat ((char_total ((result - 1) % 26)).toNat + 1) =
          char_total ((result - 1) % 26 + 1) := char_total_step _ hr
      rw [spec_incr, if_neg hcz, hstep]
      conv_rhs => rw [next_string_loop_total]
      rw [dif_pos (by omega)]
      have h1 : (result + 1 - 1) % 26 = (result - 1) % 26 + 1 := by omega
      have h2 : (result + 1 - 1) / 26 = (result - 1) / 26 := by omega
      rw [h1, h2]
  case isFalse h =>
    have h0 : result = 0 := by omega
    subst h0
    rw [spec_incr]
    conv_rhs => rw [next_string_loop_total]
    rw [dif_pos (by omega)]
    conv_rhs => rw [next_string_loop_total]
    rfl
termination_by result
decreasing_by
  exact Nat.lt_of_le_of_lt (Nat.div_le_self _ _) (Nat.sub_lt (by omega) Nat.one_pos)

/-- The generator's character list follows the spec sequence. -/
lemma next_string_total_eq_spec_word (n : Nat) :
    next_string_total n = spec_word n := by
  induction n with
  | zero =>
    show char_total (0 % 26) :: next_string_loop_total (0 / 26) = ['a']
    rw [Nat.zero_mod, Nat.zero_div, next_string_loop_total, dif_neg (by omega)]
    rfl
  | succ n ih =>
    rw [spec_word, ← ih]
    unfold next_string_total
    by_cases hz : n % 26 = 25
    · have hcz : char_total (n % 26) = 'z' := by rw [hz]; rfl
      rw [spec_incr, if_pos hcz, spec_incr_loop]
      have h1 : (n + 1) % 26 = 0 := by omega
      have h2 : (n + 1) / 26 = n / 26 + 1 := by omega
      rw [h1, h2]
      rfl
    · have hr : n % 26 < 25 := by
        have := Nat.mod_lt n (y := 26) (by omega)
        omega
      have hcz : char_total (n % 26) ≠ 'z' := char_total_ne_z _ hr
      have hstep : Char.ofNat ((char_total (n % 26)).toNat + 1) =
          char_total (n % 26 + 1) := char_total_step _ hr
      rw [spec_incr, if_neg hcz, hstep]
      have h1 : (n + 1) % 26 = n % 26 + 1 := by omega
      have h2 : (n + 1) / 26 = n / 26 := by omega
      rw [h1, h2]

lemma after_serial (n : Nat) :
    (SequentialStringGenerator.fresh.after n).string_serial = n := by
  induction n with
  | zero => rfl
  | succ n ih =>
    show (SequentialStringGenerator.after SequentialStringGenerator.fresh n).next.2.string_serial = n + 1
    rw [SequentialStringGenerator.next, ih]

lemma nth_call_eq_next_string (n : Nat) : nth_call n = next_string n := by
  unfold nth_call SequentialStringGenerator.next
  rw [after_serial]

/-- C9.  The n-th call of next_string on a fresh SequentialStringGenerator
yields the n-th string of the sequence a, b, ..., z, aa, ab, ... (spec_seq),
and any two distinct calls on the same generator return distinct strings.
Determinism is built in: nth_call is a function of n alone, so re-running a
fresh generator over the same atom ordering reproduces the same ids. -/
theorem tdd_c9_sequential_generator :
    (∀ n : Nat, nth_call n = some (spec_seq n)) ∧
    (∀ m n : Nat, m ≠ n → nth_call m ≠ nth_call n) := by
  constructor
  · intro n
    rw [nth_call_eq_next_string, next_string_eq_total, next_string_total_eq_spec_word]
    rfl
  · intro m n hmn hcontra
    rw [nth_call_eq_next_string, nth_call_eq_next_string,
      next_string_eq_total, next_string_eq_total] at hcontra
    apply hmn
    apply next_string_total_injective
    have h1 := Option.some.inj hcontra
    have h2 : (next_string_total m).reverse = (next_string_total n).reverse :=
      congrArg String.data h1
    exact List.reverse_injective h2

/-- Witness for C9: instantiates both conjuncts at concrete calls. -/
theorem tdd_c9_sequential_generator_witness :
    nth_call 0 = some (spec_seq 0) ∧ ((0 : Nat) ≠ 1 ∧ nth_call 0 ≠ nth_call 1) :=
  ⟨tdd_c9_sequential_generator.1 0,
   by decide,
   tdd_c9_sequential_generator.2 0 1 (by decide)⟩

/- ---------------------------------------------------------------------
   Section 2: atoms, formulas and the formula helpers
   (pysmt FNode values, src/theorydd/formula.py)
--------------------------------------------------------------------- -/

/-- Variables (pysmt symbols) are identified by numbers. -/
abbrev Var := Nat

/-- An atom: an atomic predicate of the input formula, either a Boolean
symbol or a theory relation.  Atoms are immutable and hashable; we keep an
identifier and the list of free variables the pysmt
atom.get_free_variables() call reports.  A Boolean symbol atom reports
itself as its only free variable; a variable-free theory atom such as
0 < 1 reports no free variables. -/
structure Atom where
  ident : Nat
  free_variables : List Var
deriving DecidableEq, Repr

/-- Quantifier-free pysmt formulas as the repository's walkers consume
them: atoms, Boolean constants, negation, n-ary conjunction and
disjunction, implication, iff and if-then-else. -/
inductive Fml where
  | atom (a : Atom)
  | tru
  | fls
  | neg (φ : Fml)
  | conj (φs : List Fml)
  | disj (φs : List Fml)
  | impl (φ ψ : Fml)
  | iff (φ ψ : Fml)
  | ite (c t e : Fml)

mutual

/-- All atom occurrences of a formula, in syntactic order. -/
def Fml.atomsRaw : Fml → List Atom
  | .atom a => [a]
  | .tru => []
  | .fls => []
  | .neg φ => φ.atomsRaw
  | .conj φs => Fml.atomsRawList φs
  | .disj φs => Fml.atomsRawList φs
  | .impl φ ψ => φ.atomsRaw ++ ψ.atomsRaw
  | .iff φ ψ => φ.atomsRaw ++ ψ.atomsRaw
  | .ite c t e => c.atomsRaw ++ t.atomsRaw ++ e.atomsRaw

/-- Atom occurrences of a list of formulas. -/
def Fml.atomsRawList : List Fml → List Atom
  | [] => []
  | φ :: φs => φ.atomsRaw ++ Fml.atomsRawList φs

end

/-- Iterating a Python set built from a list: every element once, in
first-occurrence order. -/
def dedup_keep_first {α : Type} [DecidableEq α] (l : List α) : List α :=
  l.foldl (fun acc a => if a ∈ acc then acc else acc ++ [a]) []

lemma dedup_keep_first_aux_mem {α : Type} [DecidableEq α] (l acc : List α) (a : α) :
    a ∈ l.foldl (fun acc a => if a ∈ acc then acc else acc ++ [a]) acc ↔
      a ∈ acc ∨ a ∈ l := by
  induction l generalizing acc with
  | nil => simp
  | cons b rest ih =>
    show a ∈ rest.foldl _ (if b ∈ acc then acc else acc ++ [b]) ↔ _
    rw [ih]
    by_cases hb : b ∈ acc
    · rw [if_pos hb]
      constructor
      · rintro (h | h)
        · exact Or.inl h
        · exact Or.inr (List.mem_cons_of_mem _ h)
      · rintro (h | h)
        · exact Or.inl h
        · rcases List.mem_cons.mp h with h | h
          · exact Or.inl (h ▸ hb)
          · exact Or.inr h
    · rw [if_neg hb]
      simp only [List.mem_append, List.mem_singleton, List.mem_cons]
      tauto

lemma dedup_keep_first_mem {α : Type} [DecidableEq α] (l : List α) (a : α) :
    a ∈ dedup_keep_first l ↔ a ∈ l := by
  unfold dedup_keep_first
  rw [dedup_keep_first_aux_mem]
  simp

lemma dedup_keep_first_aux_nodup {α : Type} [DecidableEq α] (l acc : List α)
    (h : acc.Nodup) :
    (l.foldl (fun acc a => if a ∈ acc then acc else acc ++ [a]) acc).Nodup := by
  induction l generalizing acc with
  | nil => exact h
  | cons b rest ih =>
    show (rest.foldl _ (if b ∈ acc then acc else acc ++ [b])).Nodup
    by_cases hb : b ∈ acc
    · rw [if_pos hb]
      exact ih acc h
    · rw [if_neg hb]
      refine ih _ ?_
      simp [List.nodup_append, h, hb]

lemma dedup_keep_first_nodup {α : Type} [DecidableEq α] (l : List α) :
    (dedup_keep_first l).Nodup :=
  dedup_keep_first_aux_nodup l [] List.nodup_nil

/-- Translation of formula.get_atoms: pysmt FNode.get_atoms returns the
set of atoms of the formula; the resulting list is duplicate-free, in
first-occurrence order. -/
def get_atoms (φ : Fml) : List Atom :=
  dedup_keep_first φ.atomsRaw

lemma get_atoms_mem (φ : Fml) (a : Atom) : a ∈ get_atoms φ ↔ a ∈ φ.atomsRaw :=
  dedup_keep_first_mem _ _

lemma get_atoms_nodup (φ : Fml) : (get_atoms φ).Nodup :=
  dedup_keep_first_nodup _

/-- Translation of pysmt FNode.get_free_variables for the quantifier-free
fragment: the set of symbols of the formula, which is the union of the
free variables of its atoms.  pysmt always returns a (possibly empty)
frozenset, never None. -/
def get_free_variables (φ : Fml) : List Var :=
  dedup_keep_first ((φ.atomsRaw.map Atom.free_variables).foldr (· ++ ·) [])

/-- Translation of formula.big_and: TRUE on the empty list, the only
element of a singleton list, and the n-ary conjunction otherwise. -/
def big_and (nodes : List Fml) : Fml :=
  match nodes with
  | [] => .tru
  | [x] => x
  | _ => .conj nodes

/-- Translation of formula.get_phi_and_lemmas: phi when there are no
lemmas, otherwise the n-ary conjunction of phi and all the lemmas. -/
def get_phi_and_lemmas (phi : Fml) (tlemmas : List Fml) : Fml :=
  if tlemmas.length = 0 then phi else .conj (phi :: tlemmas)

/-- Translation of formula.atoms_difference: the set of atoms that appear
in expanded but not in original, iterated in first-occurrence order. -/
def atoms_difference (original expanded : List Atom) : List Atom :=
  dedup_keep_first (expanded.filter (fun a => decide (a ∉ original)))

/- ---------------------------------------------------------------------
   Section 3: the lemma extractor's fresh-atom computation
   (src/theorydd/solvers/lemma_extractor.py, find_qvars)
--------------------------------------------------------------------- -/

/-- Translation of lemma_extractor.find_qvars: computes the atoms of
phi_and_lemmas that are new with respect to original_phi, but only when
the atom count grew; otherwise the empty list. -/
def find_qvars (original_phi phi_and_lemmas : Fml) : List Atom :=
  if (get_atoms original_phi).length < (get_atoms phi_and_lemmas).length then
    atoms_difference (get_atoms original_phi) (get_atoms phi_and_lemmas)
  else
    []

/-- C4.  find_qvars returns exactly the atoms of phi_and_lemmas that are
not atoms of original_phi when phi_and_lemmas has strictly more atoms than
original_phi, and the empty list otherwise.  Exactness is stated as a
membership characterization together with duplicate-freeness. -/
theorem tdd_c4_find_qvars (φ ψ : Fml) :
    (∀ a : Atom, a ∈ find_qvars φ ψ ↔
      ((get_atoms φ).length < (get_atoms ψ).length ∧
        a ∈ get_atoms ψ ∧ a ∉ get_atoms φ)) ∧
    (¬ (get_atoms φ).length < (get_atoms ψ).length → find_qvars φ ψ = []) ∧
    (find_qvars φ ψ).Nodup := by
  refine ⟨?_, ?_, ?_⟩
  · intro a
    unfold find_qvars
    split
    case isTrue h =>
      unfold atoms_difference
      rw [dedup_keep_first_mem, List.mem_filter]
      simp only [decide_eq_true_eq]
      tauto
    case isFalse h =>
      simp only [List.not_mem_nil, false_iff]
      tauto
  · intro h
    unfold find_qvars
    rw [if_neg h]
  · unfold find_qvars
    split
    · exact dedup_keep_first_nodup _
    · exact List.nodup_nil

/-- Witness for C4: a concrete pair of formulas where the atom count grew
by one fresh atom. -/
theorem tdd_c4_find_qvars_witness :
    (Atom.mk 2 [] ∈ find_qvars (Fml.atom (Atom.mk 1 []))
        (Fml.conj [Fml.atom (Atom.mk 1 []), Fml.atom (Atom.mk 2 [])]) ↔
      ((get_atoms (Fml.atom (Atom.mk 1 []))).length <
          (get_atoms (Fml.conj [Fml.atom (Atom.mk 1 []), Fml.atom (Atom.mk 2 [])])).length ∧
        Atom.mk 2 [] ∈ get_atoms (Fml.conj [Fml.atom (Atom.mk 1 []), Fml.atom (Atom.mk 2 [])]) ∧
        Atom.mk 2 [] ∉ get_atoms (Fml.atom (Atom.mk 1 [])))) ∧
    (¬ (get_atoms (Fml.atom (Atom.mk 1 []))).length <
        (get_atoms (Fml.atom (Atom.mk 1 []))).length →
      find_qvars (Fml.atom (Atom.mk 1 [])) (Fml.atom (Atom.mk 1 [])) = []) :=
  ⟨(tdd_c4_find_qvars (Fml.atom (Atom.mk 1 []))
      (Fml.conj [Fml.atom (Atom.mk 1 []), Fml.atom (Atom.mk 2 [])])).1 (Atom.mk 2 []),
   (tdd_c4_find_qvars (Fml.atom (Atom.mk 1 [])) (Fml.atom (Atom.mk 1 []))).2.1⟩

/- ---------------------------------------------------------------------
   Section 4: BDD variable ordering
   (src/theorydd/tdd/theory_bdd.py, _compute_ordering / _complete_ordering)
--------------------------------------------------------------------- -/

/-- Translation of TheoryBDD._compute_ordering: first append every qvar
(recording it in the appended_values set), then append every atom that is
not among the appended values. -/
def compute_ordering (qvars atoms : List Atom) : List Atom :=
  let s := qvars.foldl
    (fun (p : List Atom × List Atom) atom => (p.1 ++ [atom], p.2 ++ [atom]))
    ([], [])
  atoms.foldl (fun order atom => if atom ∈ s.1 then order else order ++ [atom]) s.2

/-- One step of the Python pattern order.append(item) followed by
remaining_items.remove(item): the remove raises KeyError (none) when the
item is not in the set. -/
def remove_all_ordered : List Atom → List Atom → List Atom →
    Option (List Atom × List Atom)
  | [], remaining, order => some (remaining, order)
  | x :: xs, remaining, order =>
      if x ∈ remaining then remove_all_ordered xs (remaining.erase x) (order ++ [x])
      else none

/-- Translation of TheoryBDD._complete_ordering: remaining_items starts as
the set of all atoms; qvars are placed first, then the caller-supplied
ordering, then whatever is left in the set.  A remove of an absent item is
the Python KeyError, modelled as none. -/
def complete_ordering (qvars atoms use_ordering : List Atom) : Option (List Atom) :=
  match remove_all_ordered qvars (dedup_keep_first atoms) [] with
  | none => none
  | some (remaining1, order1) =>
    match remove_all_ordered use_ordering remaining1 order1 with
    | none => none
    | some (remaining2, order2) => some (order2 ++ remaining2)

lemma compute_ordering_fold1 (qvars : List Atom) (acc1 acc2 : List Atom) :
    qvars.foldl
      (fun (p : List Atom × List Atom) atom => (p.1 ++ [atom], p.2 ++ [atom]))
      (acc1, acc2) = (acc1 ++ qvars, acc2 ++ qvars) := by
  induction qvars generalizing acc1 acc2 with
  | nil => simp
  | cons q rest ih =>
    show rest.foldl _ (acc1 ++ [q], acc2 ++ [q]) = _
    rw [ih]
    simp

lemma compute_ordering_fold2 (atoms qv ord : List Atom) :
    atoms.foldl (fun order atom => if atom ∈ qv then order else order ++ [atom]) ord
      = ord ++ atoms.filter (fun a => decide (a ∉ qv)) := by
  induction atoms generalizing ord with
  | nil => simp
  | cons a rest ih =>
    show rest.foldl _ (if a ∈ qv then ord else ord ++ [a]) = _
    by_cases ha : a ∈ qv
    · rw [if_pos ha, ih, List.filter_cons]
      simp [ha]
    · rw [if_neg ha, ih, List.filter_cons]
      simp [ha]

lemma compute_ordering_eq (qvars atoms : List Atom) :
    compute_ordering qvars atoms =
      qvars ++ atoms.filter (fun a => decide (a ∉ qvars)) := by
  unfold compute_ordering
  rw [compute_ordering_fold1, compute_ordering_fold2]
  simp

lemma remove_all_ordered_spec (l : List Atom) :
    ∀ remaining order, l.Nodup → (∀ a ∈ l, a ∈ remaining) → remaining.Nodup →
    ∃ r : List Atom, remove_all_ordered l remaining order = some (r, order ++ l) ∧
      r.Nodup ∧ (∀ a, a ∈ r ↔ a ∈ remaining ∧ a ∉ l) := by
  induction l with
  | nil =>
    intro remaining order _ _ hrem
    refine ⟨remaining, by simp [remove_all_ordered], hrem, ?_⟩
    simp
  | cons x xs ih =>
    intro remaining order hnd hsub hrem
    have hx : x ∈ remaining := hsub x (List.mem_cons_self _ _)
    have hxs : ∀ a ∈ xs, a ∈ remaining.erase x := by
      intro a ha
      have hax : a ≠ x := by
        intro h
        exact (List.nodup_cons.mp hnd).1 (h ▸ ha)
      exact (List.mem_erase_of_ne hax).mpr (hsub a (List.mem_cons_of_mem _ ha))
    obtain ⟨r, hr, hrnd, hrmem⟩ :=
      ih (remaining.erase x) (order ++ [x]) (List.nodup_cons.mp hnd).2 hxs
        (hrem.erase x)
    refine ⟨r, ?_, hrnd, ?_⟩
    · show (if x ∈ remaining then
          remove_all_ordered xs (remaining.erase x) (order ++ [x]) else none) = _
      rw [if_pos hx, hr]
      simp
    · intro a
      rw [hrmem a, hrem.mem_erase_iff]
      simp only [List.mem_cons]
      tauto

/-- C7.  For a BDD-kind build over the (duplicate-free) atoms of
phi-and-lemmas, with qvars a duplicate-free subset of the atoms: the
default ordering is the qvars (in their order) followed by the remaining
atoms in mapping-insertion order, and every atom appears exactly once;
with a valid caller-supplied partial ordering (duplicate-free atoms of
phi-and-lemmas that are not qvars) the completed ordering is qvars first,
then the supplied order, then exactly the atoms not yet placed, and every
atom appears exactly once. -/
theorem tdd_c7_bdd_variable_ordering (qvars atoms use_ordering : List Atom)
    (hat : atoms.Nodup) (hq : qvars.Nodup) (hqsub : ∀ a ∈ qvars, a ∈ atoms)
    (hu : use_ordering.Nodup) (husub : ∀ a ∈ use_ordering, a ∈ atoms)
    (hdisj : ∀ a ∈ use_ordering, a ∉ qvars) :
    (compute_ordering qvars atoms =
      qvars ++ atoms.filter (fun a => decide (a ∉ qvars))) ∧
    (∀ a ∈ atoms, (compute_ordering qvars atoms).count a = 1) ∧
    (∃ rest : List Atom,
      complete_ordering qvars atoms use_ordering =
        some (qvars ++ (use_ordering ++ rest)) ∧
      (∀ a, a ∈ rest ↔ a ∈ atoms ∧ a ∉ qvars ∧ a ∉ use_ordering) ∧
      (∀ a ∈ atoms, (qvars ++ (use_ordering ++ rest)).count a = 1)) := by
  have hddn : (dedup_keep_first atoms).Nodup := dedup_keep_first_nodup atoms
  refine ⟨compute_ordering_eq qvars atoms, ?_, ?_⟩
  · intro a ha
    rw [compute_ordering_eq, List.count_append]
    by_cases haq : a ∈ qvars
    · rw [List.count_eq_one_of_mem hq haq,
        List.count_eq_zero_of_not_mem (by simp [List.mem_filter, haq])]
    · rw [List.count_eq_zero_of_not_mem haq, List.count_filter (by simp [haq]),
        List.count_eq_one_of_mem hat ha]
  · obtain ⟨r1, hr1, hr1nd, hr1mem⟩ :=
      remove_all_ordered_spec qvars (dedup_keep_first atoms) [] hq
        (fun a ha => (dedup_keep_first_mem atoms a).mpr (hqsub a ha)) hddn
    have husub1 : ∀ a ∈ use_ordering, a ∈ r1 := by
      intro a ha
      rw [hr1mem a, dedup_keep_first_mem]
      exact ⟨husub a ha, hdisj a ha⟩
    obtain ⟨r2, hr2, hr2nd, hr2mem⟩ :=
      remove_all_ordered_spec use_ordering r1 ([] ++ qvars) hu husub1 hr1nd
    refine ⟨r2, ?_, ?_, ?_⟩
    · unfold complete_ordering
      rw [hr1]
      dsimp only
      rw [hr2]
      simp
    · intro a
      rw [hr2mem a, hr1mem a, dedup_keep_first_mem]
      tauto
    · intro a ha
      have hmem2 : ∀ b, b ∈ r2 ↔ b ∈ atoms ∧ b ∉ qvars ∧ b ∉ use_ordering := by
        intro b
        rw [hr2mem b, hr1mem b, dedup_keep_first_mem]
        tauto
      rw [List.count_append, List.count_append]
      by_cases haq : a ∈ qvars
      · rw [List.count_eq_one_of_mem hq haq,
          List.count_eq_zero_of_not_mem (fun h => hdisj a h haq),
          List.count_eq_zero_of_not_mem (by rw [hmem2]; tauto)]
      · rw [List.count_eq_zero_of_not_mem haq]
        by_cases hau : a ∈ use_ordering
        · rw [List.count_eq_one_of_mem hu hau,
            List.count_eq_zero_of_not_mem (by rw [hmem2]; tauto)]
        · rw [List.count_eq_zero_of_not_mem hau,
            List.count_eq_one_of_mem hr2nd (by rw [hmem2]; tauto)]

/-- Witness for C7: three atoms, one qvar, one supplied atom. -/
theorem tdd_c7_bdd_variable_ordering_witness :
    ([Atom.mk 0 [], Atom.mk 1 [], Atom.mk 2 []].Nodup ∧
      [Atom.mk 0 []].Nodup ∧
      (∀ a ∈ [Atom.mk 0 []], a ∈ [Atom.mk 0 [], Atom.mk 1 [], Atom.mk 2 []]) ∧
      [Atom.mk 1 []].Nodup ∧
      (∀ a ∈ [Atom.mk 1 []], a ∈ [Atom.mk 0 [], Atom.mk 1 [], Atom.mk 2 []]) ∧
      (∀ a ∈ [Atom.mk 1 []], a ∉ [Atom.mk 0 []])) ∧
    ((compute_ordering [Atom.mk 0 []] [Atom.mk 0 [], Atom.mk 1 [], Atom.mk 2 []] =
        [Atom.mk 0 []] ++ [Atom.mk 0 [], Atom.mk 1 [], Atom.mk 2 []].filter
          (fun a => decide (a ∉ [Atom.mk 0 []]))) ∧
      (∀ a ∈ [Atom.mk 0 [], Atom.mk 1 [], Atom.mk 2 []],
        (compute_ordering [Atom.mk 0 []]
          [Atom.mk 0 [], Atom.mk 1 [], Atom.mk 2 []]).count a = 1) ∧
      (∃ rest : List Atom,
        complete_ordering [Atom.mk 0 []] [Atom.mk 0 [], Atom.mk 1 [], Atom.mk 2 []]
            [Atom.mk 1 []] = some ([Atom.mk 0 []] ++ ([Atom.mk 1 []] ++ rest)) ∧
        (∀ a, a ∈ rest ↔ a ∈ [Atom.mk 0 [], Atom.mk 1 [], Atom.mk 2 []] ∧
          a ∉ [Atom.mk 0 []] ∧ a ∉ [Atom.mk 1 []]) ∧
        (∀ a ∈ [Atom.mk 0 [], Atom.mk 1 [], Atom.mk 2 []],
          ([Atom.mk 0 []] ++ ([Atom.mk 1 []] ++ rest)).count a = 1))) :=
  ⟨⟨by decide, by decide, by decide, by decide, by decide, by decide⟩,
   tdd_c7_bdd_variable_ordering [Atom.mk 0 []]
     [Atom.mk 0 [], Atom.mk 1 [], Atom.mk 2 []] [Atom.mk 1 []]
     (by decide) (by decide) (by decide) (by decide) (by decide) (by decide)⟩

/- ---------------------------------------------------------------------
   Section 5: executable model of the external CUDD BDD engine
   (the dd.cudd manager used by theory_bdd.py; interface boundary)
--------------------------------------------------------------------- -/

/-- Binary decision diagrams over string-labelled variables, the values
handed out by the CUDD manager.  leaf false is the manager's false node,
leaf true its true node. -/
inductive CBDD where
  | leaf (b : Bool)
  | node (v : String) (lo hi : CBDD)
deriving DecidableEq, Repr

/-- Conjunction of two BDDs, with the constant shortcuts the engine
guarantees. -/
def bddAnd : CBDD → CBDD → CBDD
  | .leaf b, g => if b then g else .leaf false
  | f, .leaf b => if b then f else .leaf false
  | .node v1 l1 h1, .node v2 l2 h2 =>
    if v1 = v2 then .node v1 (bddAnd l1 l2) (bddAnd h1 h2)
    else if v1 < v2 then
      .node v1 (bddAnd l1 (.node v2 l2 h2)) (bddAnd h1 (.node v2 l2 h2))
    else
      .node v2 (bddAnd (.node v1 l1 h1) l2) (bddAnd (.node v1 l1 h1) h2)
termination_by f g => sizeOf f + sizeOf g
decreasing_by all_goals (simp_wf; try omega)

/-- Disjunction of two BDDs. -/
def bddOr : CBDD → CBDD → CBDD
  | .leaf b, g => if b then .leaf true else g
  | f, .leaf b => if b then .leaf true else f
  | .node v1 l1 h1, .node v2 l2 h2 =>
    if v1 = v2 then .node v1 (bddOr l1 l2) (bddOr h1 h2)
    else if v1 < v2 then
      .node v1 (bddOr l1 (.node v2 l2 h2)) (bddOr h1 (.node v2 l2 h2))
    else
      .node v2 (bddOr (.node v1 l1 h1) l2) (bddOr (.node v1 l1 h1) h2)
termination_by f g => sizeOf f + sizeOf g
decreasing_by all_goals (simp_wf; try omega)

/-- Negation of a BDD. -/
def bddNot : CBDD → CBDD
  | .leaf b => .leaf (!b)
  | .node v lo hi => .node v (bddNot lo) (bddNot hi)

/-- Cofactor of a BDD with respect to a variable. -/
def bddRestrict (f : CBDD) (v : String) (b : Bool) : CBDD :=
  match f with
  | .leaf c => .leaf c
  | .node w lo hi =>
    if w = v then (if b then bddRestrict hi v b else bddRestrict lo v b)
    else .node w (bddRestrict lo v b) (bddRestrict hi v b)

/-- Existential quantification of a single variable. -/
def bddExistsVar (f : CBDD) (v : String) : CBDD :=
  bddOr (bddRestrict f v true) (bddRestrict f v false)

/-- Existential quantification over a list of variables. -/
def bddExistsList (vars : List String) (f : CBDD) : CBDD :=
  match vars with
  | [] => f
  | v :: rest => bddExistsVar (bddExistsList rest f) v

/-- Model of cudd.and_exists u v qvars: the existential quantification of
the conjunction of u and v over the qvars. -/
def cudd_and_exists (u v : CBDD) (qvars : List String) : CBDD :=
  bddExistsList qvars (bddAnd u v)

/-- Evaluation of a BDD under an assignment. -/
def bddEval (f : CBDD) (σ : String → Bool) : Bool :=
  match f with
  | .leaf b => b
  | .node v lo hi => if σ v then bddEval hi σ else bddEval lo σ

/-- The variables a BDD mentions, each once. -/
def bddSupport : CBDD → List String
  | .leaf _ => []
  | .node v lo hi => dedup_keep_first (v :: (bddSupport lo ++ bddSupport hi))

/-- All assignments over a list of variables, as association lists. -/
def assignments {α : Type} : List α → List (List (α × Bool))
  | [] => [[]]
  | v :: rest =>
    (assignments rest).map (fun σ => (v, false) :: σ) ++
      (assignments rest).map (fun σ => (v, true) :: σ)

/-- Looks an association-list assignment up, defaulting to false. -/
def lookupB {α : Type} [BEq α] (σ : List (α × Bool)) (v : α) : Bool :=
  ((σ.find? (fun p => p.1 == v)).map Prod.snd).getD false

/-- Number of satisfying assignments of a BDD over a given variable
list. -/
def count_sat (f : CBDD) (vars : List String) : Nat :=
  ((assignments vars).filter (fun σ => bddEval f (lookupB σ))).length

/-- Model of CUDD's root.count(nvars=k): the number of minterms of the
function over a universe of k variables: satisfying assignments over the
support, scaled by two for every universe variable outside the support. -/
def cudd_count (f : CBDD) (nvars : Nat) : Nat :=
  count_sat f (bddSupport f) * 2 ^ (nvars - (bddSupport f).length)

/-- The distinct subdiagrams of a BDD. -/
def bddSubtrees : CBDD → List CBDD
  | .leaf b => [.leaf b]
  | .node v lo hi =>
    dedup_keep_first (.node v lo hi :: (bddSubtrees lo ++ bddSubtrees hi))

/-- Model of len(root) for a CUDD function: the number of distinct nodes
of the rooted DAG (1 for a constant). -/
def cudd_dag_size (f : CBDD) : Nat :=
  (bddSubtrees f).length

/-- Model of CUDD's root.pick(): some satisfying path, none for an
unsatisfiable diagram. -/
def cudd_pick : CBDD → Option (List (String × Bool))
  | .leaf b => if b then some [] else none
  | .node v lo hi =>
    match cudd_pick hi with
    | some σ => some ((v, true) :: σ)
    | none => (cudd_pick lo).map (fun σ => (v, false) :: σ)

/-- Model of bdd.pick_iter(root, care_vars): the satisfying assignments
over the care variables. -/
def cudd_pick_iter (f : CBDD) (care_vars : List String) :
    List (List (String × Bool)) :=
  (assignments care_vars).filter (fun σ => bddEval f (lookupB σ))

/- ---------------------------------------------------------------------
   Section 6: the BDD walker
   (src/theorydd/walkers/walker_bdd.py, identical walk logic to the
   shipped copy src/theorydd/walker_bdd.py)
--------------------------------------------------------------------- -/

mutual

/-- Translation of BDDWalker.walk: converts a pysmt formula into a BDD.
The mapping lookup of _apply_mapping returns none for unmapped atoms
(which the Python caller would crash on); n-ary conjunctions and
disjunctions fold their first argument with the rest. -/
def walkBDD (m : Atom → Option String) : Fml → Option CBDD
  | .atom a =>
    match m a with
    | some s => some (.node s (.leaf false) (.leaf true))
    | none => none
  | .tru => some (.leaf true)
  | .fls => some (.leaf false)
  | .neg φ =>
    match walkBDD m φ with
    | some x => some (bddNot x)
    | none => none
  | .conj φs =>
    match walkBDDList m φs with
    | some [] => none
    | some (x :: rest) => some (rest.foldl bddAnd x)
    | none => none
  | .disj φs =>
    match walkBDDList m φs with
    | some [] => none
    | some (x :: rest) => some (rest.foldl bddOr x)
    | none => none
  | .impl φ ψ =>
    match walkBDD m φ, walkBDD m ψ with
    | some x, some y => some (bddOr (bddNot x) y)
    | _, _ => none
  | .iff φ ψ =>
    match walkBDD m φ, walkBDD m ψ with
    | some x, some y => some (bddOr (bddAnd x y) (bddAnd (bddNot x) (bddNot y)))
    | _, _ => none
  | .ite c t e =>
    match walkBDD m c, walkBDD m t, walkBDD m e with
    | some x, some y, some z => some (bddAnd (bddOr (bddNot x) y) (bddOr x z))
    | _, _, _ => none

/-- The walker's argument lists. -/
def walkBDDList (m : Atom → Option String) : List Fml → Option (List CBDD)
  | [] => some []
  | φ :: φs =>
    match walkBDD m φ, walkBDDList m φs with
    | some x, some xs => some (x :: xs)
    | _, _ => none

end

/- ---------------------------------------------------------------------
   Section 7: the T-BDD construction
   (src/theorydd/tdd/theory_dd.py, src/theorydd/tdd/theory_bdd.py)
--------------------------------------------------------------------- -/

/-- constants.py: SAT = True. -/
def SAT : Bool := true

/-- constants.py: UNSAT = False. -/
def UNSAT : Bool := false

/-- The padding loop of TheoryDD._load_lemmas: while fewer than 2 lemmas
are present, append TRUE. -/
def pad_lemmas (tlemmas : List Fml) : List Fml :=
  match tlemmas with
  | [] => [.tru, .tru]
  | [x] => [x, .tru]
  | ls => ls

/-- Translation of TheoryBDD._compute_mapping's loop from a given
generator state: assigns each atom the next generated string. -/
def compute_mapping_from : List Atom → SequentialStringGenerator →
    Option (List (Atom × String))
  | [], _ => some []
  | a :: rest, g =>
    match g.next with
    | (none, _) => none
    | (some s, g2) => (compute_mapping_from rest g2).map (fun mp => (a, s) :: mp)

/-- Translation of TheoryBDD._compute_mapping: a fresh
SequentialStringGenerator names the atoms in order. -/
def compute_mapping (atoms : List Atom) : Option (List (Atom × String)) :=
  compute_mapping_from atoms SequentialStringGenerator.fresh

/-- Python dict lookup self.abstraction[atom] (none is the KeyError). -/
def assoc_get (mp : List (Atom × String)) (a : Atom) : Option String :=
  (mp.find? (fun p => p.1 == a)).map Prod.snd

/-- Python dict lookup self.refinement[label]. -/
def refinement_get (mp : List (Atom × String)) (s : String) : Option Atom :=
  (mp.find? (fun p => p.2 == s)).map Prod.fst

/-- Translation of TheoryDD._build_unsat for the BDD walker: the diagram
of the constant False formula (formula.bottom()). -/
def theory_dd_build_unsat (m : Atom → Option String) : Option CBDD :=
  walkBDD m Fml.fls

/-- Translation of TheoryDD._build for the BDD engine: build the diagram
of phi, build the diagram of big_and of the t-lemmas, map the qvars
through the abstraction, existentially quantify the lemma diagram over
the mapped qvars when there are any (cudd.and_exists with the true
constant), and conjoin phi's diagram with the result. -/
def theory_dd_build (m : Atom → Option String) (qvars : List Atom)
    (phi : Fml) (tlemmas : List Fml) : Option CBDD :=
  match walkBDD m phi with
  | none => none
  | some phi_bdd =>
    match walkBDD m (big_and tlemmas) with
    | none => none
    | some tlemmas_dd =>
      match qvars.mapM m with
      | none => none
      | some mapped_qvars =>
        let tlemmas_dd2 :=
          if 0 < mapped_qvars.length then
            cudd_and_exists tlemmas_dd (.leaf true) mapped_qvars
          else tlemmas_dd
        some (bddAnd phi_bdd tlemmas_dd2)

/-- The state of a built TheoryBDD: the root, the abstraction mapping
(the refinement is its inverse), the qvars and the variable ordering. -/
structure TheoryBDDState where
  root : CBDD
  abstraction : List (Atom × String)
  qvars : List Atom
  ordering : List Atom

/-- Translation of the TheoryBDD constructor for the in-memory paths (the
folder_name and load_lemmas paths read the filesystem and are outside the
model).  The solver-dependent pieces are parameters: normalize is
formula.get_normalized with the solver's converter, normalize_atom the
same converter on single atoms, all_smt the extract(...) All-SMT call
returning the SAT/UNSAT verdict and the theory lemmas. -/
def theory_bdd_init
    (normalize : Fml → Fml)
    (normalize_atom : Atom → Atom)
    (all_smt : Fml → Bool × List Fml)
    (phi : Fml)
    (tlemmas_arg : Option (List Fml))
    (sat_result_arg : Option Bool)
    (use_ordering_arg : Option (List Atom)) : Option TheoryBDDState :=
  -- NORMALIZE PHI
  let phi2 := normalize phi
  -- LOAD LEMMAS (tlemmas given: ALL SMT mode loaded, sat_result untouched;
  -- otherwise computed, sat_result overwritten by the solver verdict)
  let loaded : List Fml × Option Bool :=
    match tlemmas_arg with
    | some ls => (ls, sat_result_arg)
    | none => ((all_smt phi2).2, some (all_smt phi2).1)
  let tlemmas := pad_lemmas (loaded.1.map normalize)
  let sat_result := loaded.2
  -- COMPUTE PHI AND LEMMAS
  let phi_and_lemmas := get_phi_and_lemmas phi2 tlemmas
  -- FIND QVARS
  let qvars := find_qvars phi2 phi_and_lemmas
  let atoms := get_atoms phi_and_lemmas
  -- CREATING VARIABLE MAPPING
  match compute_mapping atoms with
  | none => none
  | some abstraction =>
    -- PREPARE FOR BUILDING: the ordering, then the variable declaration
    let ordering2 : Option (List Atom) :=
      match use_ordering_arg with
      | some uo => complete_ordering qvars atoms (uo.map normalize_atom)
      | none => some (compute_ordering qvars atoms)
    match ordering2 with
    | none => none
    | some ordering =>
      -- ordering_abstraction = [abstraction[atom] for atom in ordering]
      match ordering.mapM (assoc_get abstraction) with
      | none => none
      | some _ordering_abstraction =>
        let root2 : Option CBDD :=
          if sat_result = none ∨ sat_result = some SAT then
            theory_dd_build (assoc_get abstraction) qvars phi2 tlemmas
          else
            theory_dd_build_unsat (assoc_get abstraction)
        match root2 with
        | none => none
        | some root => some ⟨root, abstraction, qvars, ordering⟩

/-- Translation of TheoryBDD.count_nodes: len(self.root), the DAG size of
the root. -/
def theory_bdd_count_nodes (d : TheoryBDDState) : Nat :=
  cudd_dag_size d.root

/-- Translation of TheoryBDD.count_models: the CUDD minterm count of the
root over a universe of len(abstraction) - len(qvars) variables; a CUDD
RuntimeError (engine_raises, a resource-exhaustion condition external to
the state) is caught and turned into the sentinel -1. -/
def theory_bdd_count_models (d : TheoryBDDState) (engine_raises : Bool) : Int :=
  if engine_raises then -1
  else Int.ofNat (cudd_count d.root (d.abstraction.length - d.qvars.length))

/-- Translation of TheoryBDD.is_sat: the root differs from the manager's
false node. -/
def theory_bdd_is_sat (d : TheoryBDDState) : Bool :=
  decide (d.root ≠ CBDD.leaf false)

/-- Translation of TheoryBDD._get_care_vars: all abstraction labels minus
the labels of the qvars. -/
def theory_bdd_care_vars (d : TheoryBDDState) : List String :=
  let dont_care := d.qvars.filterMap (assoc_get d.abstraction)
  (d.abstraction.map Prod.snd).filter (fun s => decide (s ∉ dont_care))

/-- Translation of TheoryBDD._convert_assignment: refine every label of
the engine assignment; none models the KeyError of an unmapped label. -/
def convert_assignment (d : TheoryBDDState) (σ : List (String × Bool)) :
    Option (List (Atom × Bool)) :=
  σ.mapM (fun p => (refinement_get d.abstraction p.1).map (fun a => (a, p.2)))

/-- Translation of TheoryBDD.pick: None when the formula is
unsatisfiable, otherwise the converted engine assignment (none also
models the impossible conversion failure). -/
def theory_bdd_pick (d : TheoryBDDState) : Option (List (Atom × Bool)) :=
  if !(theory_bdd_is_sat d) then none
  else
    match cudd_pick d.root with
    | none => none
    | some σ => convert_assignment d σ

/-- Translation of TheoryBDD.pick_all: the empty list when the formula is
unsatisfiable, otherwise all converted assignments over the care
variables. -/
def theory_bdd_pick_all (d : TheoryBDDState) :
    Option (List (List (Atom × Bool))) :=
  if !(theory_bdd_is_sat d) then some []
  else (cudd_pick_iter d.root (theory_bdd_care_vars d)).mapM (convert_assignment d)

lemma compute_mapping_from_spec (atoms : List Atom) :
    ∀ g : SequentialStringGenerator, ∃ mp,
      compute_mapping_from atoms g = some mp ∧ mp.map Prod.fst = atoms := by
  induction atoms with
  | nil => exact fun g => ⟨[], rfl, rfl⟩
  | cons a rest ih =>
    intro g
    obtain ⟨mp, hmp, hkeys⟩ := ih ⟨g.string_serial + 1⟩
    refine ⟨(a, (String.mk (next_string_total g.string_serial).reverse)) :: mp, ?_, ?_⟩
    · show (match g.next with
        | (none, _) => none
        | (some s, g2) => (compute_mapping_from rest g2).map (fun mp => (a, s) :: mp)) = _
      rw [SequentialStringGenerator.next, next_string_eq_total]
      dsimp only
      rw [hmp]
      rfl
    · rw [List.map_cons, hkeys]

lemma assoc_get_isSome {mp : List (Atom × String)} {a : Atom}
    (h : a ∈ mp.map Prod.fst) : ∃ s, assoc_get mp a = some s := by
  induction mp with
  | nil => simp at h
  | cons p rest ih =>
    by_cases hpa : p.1 = a
    · exact ⟨p.2, by simp [assoc_get, List.find?, hpa]⟩
    · have h2 : a ∈ rest.map Prod.fst := by
        rcases List.mem_cons.mp h with h1 | h1
        · exact absurd h1.symm hpa
        · exact h1
      obtain ⟨s, hs⟩ := ih h2
      refine ⟨s, ?_⟩
      unfold assoc_get at hs ⊢
      rw [List.find?_cons_of_neg _ (by simp [hpa])]
      exact hs

lemma option_mapM_loop_some {α β : Type} (f : α → Option β) (l : List α)
    (h : ∀ a ∈ l, ∃ y, f a = some y) :
    ∀ acc : List β, ∃ ys, List.mapM.loop f l acc = some ys := by
  induction l with
  | nil => exact fun acc => ⟨acc.reverse, rfl⟩
  | cons a rest ih =>
    intro acc
    obtain ⟨y, hy⟩ := h a (List.mem_cons_self _ _)
    obtain ⟨ys, hys⟩ := ih (fun b hb => h b (List.mem_cons_of_mem _ hb)) (y :: acc)
    exact ⟨ys, by simp [List.mapM.loop, hy, hys]⟩

lemma option_mapM_some {α β : Type} (f : α → Option β) (l : List α)
    (h : ∀ a ∈ l, ∃ y, f a = some y) : ∃ ys, l.mapM f = some ys :=
  option_mapM_loop_some f l h []

lemma find_qvars_subset (φ ψ : Fml) :
    ∀ a ∈ find_qvars φ ψ, a ∈ get_atoms ψ := by
  intro a ha
  unfold find_qvars at ha
  split at ha
  · unfold atoms_difference at ha
    rw [dedup_keep_first_mem, List.mem_filter] at ha
    exact ha.1
  · simp at ha

lemma compute_ordering_subset (qvars atoms : List Atom)
    (hq : ∀ a ∈ qvars, a ∈ atoms) :
    ∀ a ∈ compute_ordering qvars atoms, a ∈ atoms := by
  intro a ha
  rw [compute_ordering_eq] at ha
  rcases List.mem_append.mp ha with h | h
  · exact hq a h
  · exact (List.mem_filter.mp h).1

/-- C1.  When the All-SMT check of the (normalized) input formula returns
UNSAT, the T-BDD construction succeeds, its root is the diagram of the
constant False formula, count_nodes() is 1 and count_models() is 0 over
the declared variable universe (with the engine's counting not raising). -/
theorem tdd_c1_unsat_build
    (normalize : Fml → Fml) (normalize_atom : Atom → Atom)
    (all_smt : Fml → Bool × List Fml) (phi : Fml)
    (hunsat : (all_smt (normalize phi)).1 = UNSAT) :
    ∃ d : TheoryBDDState,
      theory_bdd_init normalize normalize_atom all_smt phi none none none = some d ∧
      d.root = CBDD.leaf false ∧
      theory_bdd_count_nodes d = 1 ∧
      theory_bdd_count_models d false = 0 := by
  unfold theory_bdd_init
  dsimp only
  set phi2 := normalize phi with hphi2
  set tlemmas := pad_lemmas ((all_smt phi2).2.map normalize) with htl
  set phi_and_lemmas := get_phi_and_lemmas phi2 tlemmas with hpal
  set qvars := find_qvars phi2 phi_and_lemmas with hqv
  set atoms := get_atoms phi_and_lemmas with hat
  obtain ⟨mp, hmp, hkeys⟩ :=
    compute_mapping_from_spec atoms SequentialStringGenerator.fresh
  rw [show compute_mapping atoms = some mp from hmp]
  dsimp only
  obtain ⟨labels, hlabels⟩ :=
    option_mapM_some (assoc_get mp) (compute_ordering qvars atoms)
      (fun a ha => assoc_get_isSome (hkeys ▸
        compute_ordering_subset qvars atoms
          (fun b hb => find_qvars_subset phi2 phi_and_lemmas b hb) a ha))
  rw [hlabels]
  dsimp only
  rw [hunsat]
  rw [if_neg (by simp [SAT, UNSAT])]
  refine ⟨⟨CBDD.leaf false, mp, qvars, compute_ordering qvars atoms⟩, rfl, rfl, rfl, ?_⟩
  show theory_bdd_count_models _ false = 0
  unfold theory_bdd_count_models
  rw [if_neg (by simp)]
  show Int.ofNat (cudd_count (CBDD.leaf false) _) = 0
  unfold cudd_count count_sat
  simp [bddSupport, assignments, bddEval]

/-- Witness for C1: a solver whose All-SMT check answers UNSAT with no
lemmas, on the True formula with identity normalization. -/
theorem tdd_c1_unsat_build_witness :
    ((fun _ : Fml => (false, ([] : List Fml))) (id Fml.tru)).1 = UNSAT ∧
    ∃ d : TheoryBDDState,
      theory_bdd_init id id (fun _ => (false, [])) Fml.tru none none none = some d ∧
      d.root = CBDD.leaf false ∧
      theory_bdd_count_nodes d = 1 ∧
      theory_bdd_count_models d false = 0 :=
  ⟨rfl, tdd_c1_unsat_build id id (fun _ => (false, [])) Fml.tru rfl⟩

/- ---------------------------------------------------------------------
   Section 8: executable model of the external pysdd SDD engine and the
   T-SDD operations (src/theorydd/tdd/theory_sdd.py)
--------------------------------------------------------------------- -/

/-- SDD nodes as the pysdd manager hands them out: the false and true
constants, literals (negative integers are negated variables), and
decision nodes holding (prime, sub) element pairs. -/
inductive SddNode where
  | fls
  | tru
  | lit (l : Int)
  | decision (elems : List (SddNode × SddNode))

/-- True exactly on the manager's false node. -/
def SddNode.isFalseNode : SddNode → Bool
  | .fls => true
  | _ => false

mutual

/-- Evaluation of an SDD node under an assignment of the 1-based variable
indices. -/
def SddNode.evalS (σ : Nat → Bool) : SddNode → Bool
  | .fls => false
  | .tru => true
  | .lit l => if l < 0 then !(σ l.natAbs) else σ l.natAbs
  | .decision elems => SddNode.evalElems σ elems

/-- A decision node is the disjunction of the conjunctions of its
element pairs. -/
def SddNode.evalElems (σ : Nat → Bool) : List (SddNode × SddNode) → Bool
  | [] => false
  | e :: rest => (SddNode.evalS σ e.1 && SddNode.evalS σ e.2) || SddNode.evalElems σ rest

end

/-- The satisfying total assignments of an SDD over the variables
1..var_count, as pysdd's models() iterator enumerates them. -/
def sdd_models (root : SddNode) (var_count : Nat) : List (List (Nat × Bool)) :=
  (assignments (List.range' 1 var_count)).filter
    (fun σ => root.evalS (lookupB σ))

/-- Model of WmcManager.propagate() with the default unit literal weights
and log_mode false: the number of satisfying total assignments of the
root over all declared variables. -/
def sdd_wmc_propagate (root : SddNode) (var_count : Nat) : Nat :=
  (sdd_models root var_count).length

/-- The state of a built TheorySDD: the root, the abstraction mapping to
1-based literal indices, and the qvars. -/
structure TheorySDDState where
  root : SddNode
  abstraction : List (Atom × Nat)
  qvars : List Atom

/-- Translation of TheorySDD.count_models: the weighted model count of
the root divided by 2 ^ len(qvars) (Python float division, modelled
exactly in ℚ).  There is no try/except around the engine call: a raising
engine propagates (Except.error). -/
def theory_sdd_count_models (d : TheorySDDState) (engine_raises : Bool) :
    Except Unit ℚ :=
  if engine_raises then Except.error ()
  else Except.ok ((sdd_wmc_propagate d.root d.abstraction.length : ℚ) /
    2 ^ d.qvars.length)

/-- Translation of TheorySDD.is_sat: the root differs from
manager.false(). -/
def theory_sdd_is_sat (d : TheorySDDState) : Bool :=
  !(d.root.isFalseNode)

/-- Translation of TheorySDD._refine_model: refine every literal index of
the model through the refinement, skipping qvars (a missing index would
be the Python KeyError, modelled by dropping, unreachable for built
diagrams). -/
def sdd_refine_model (d : TheorySDDState) (model : List (Nat × Bool)) :
    List (Atom × Bool) :=
  model.filterMap (fun p =>
    match d.abstraction.find? (fun q => q.2 == p.1) with
    | none => none
    | some q => if q.1 ∈ d.qvars then none else some (q.1, p.2))

/-- Translation of TheorySDD.pick: None when the formula is
unsatisfiable, otherwise the refinement of the first enumerated model
(None again when the engine enumerates no model). -/
def theory_sdd_pick (d : TheorySDDState) : Option (List (Atom × Bool)) :=
  if !(theory_sdd_is_sat d) then none
  else (sdd_models d.root d.abstraction.length).head?.map (sdd_refine_model d)

/-- Translation of TheorySDD.pick_all: the empty list when the formula is
unsatisfiable, otherwise the refinements of all enumerated models. -/
def theory_sdd_pick_all (d : TheorySDDState) : List (List (Atom × Bool)) :=
  if !(theory_sdd_is_sat d) then []
  else (sdd_models d.root d.abstraction.length).map (sdd_refine_model d)

/-- C3.  count_models adjusts for qvars: the BDD-kind implementation
counts minterms over a universe of len(abstraction) - len(qvars)
variables, and the SDD-kind implementation divides the weighted model
count (taken over all declared variables) by 2 ^ len(qvars), whenever the
underlying engine does not raise. -/
theorem tdd_c3_count_models_adjustment :
    (∀ d : TheoryBDDState, theory_bdd_count_models d false =
      Int.ofNat (count_sat d.root (bddSupport d.root) *
        2 ^ ((d.abstraction.length - d.qvars.length) - (bddSupport d.root).length))) ∧
    (∀ d : TheorySDDState, theory_sdd_count_models d false =
      Except.ok (((sdd_models d.root d.abstraction.length).length : ℚ) /
        2 ^ d.qvars.length)) := by
  exact ⟨fun d => rfl, fun d => rfl⟩

/-- C6 counterexample: a concrete SDD diagram on which the engine's
counting raises; TheorySDD.count_models propagates the condition instead
of catching it and returning -1. -/
theorem tdd_c6_count_models_counterexample :
    theory_sdd_count_models ⟨SddNode.tru, [], []⟩ true = Except.error () ∧
    theory_sdd_count_models ⟨SddNode.tru, [], []⟩ true ≠ Except.ok (-1) := by
  constructor
  · rfl
  · intro h
    exact Except.noConfusion h

/-- C6 (amended).  Only the BDD-kind count_models catches the engine's
resource-exhaustion condition and returns the sentinel -1; the SDD-kind
count_models propagates it to the caller. -/
theorem tdd_c6_count_models_amended :
    (∀ d : TheoryBDDState, theory_bdd_count_models d true = -1) ∧
    (∀ d : TheorySDDState, theory_sdd_count_models d true = Except.error ()) :=
  ⟨fun _ => rfl, fun _ => rfl⟩

/-- C10.  On a diagram whose root is the false node (is_sat() returns
False), pick() returns None and pick_all() returns the empty list, for
both the BDD-kind and the SDD-kind implementation. -/
theorem tdd_c10_pick_on_unsat (db : TheoryBDDState) (ds : TheorySDDState)
    (hb : theory_bdd_is_sat db = false) (hs : theory_sdd_is_sat ds = false) :
    theory_bdd_pick db = none ∧ theory_bdd_pick_all db = some [] ∧
    theory_sdd_pick ds = none ∧ theory_sdd_pick_all ds = [] := by
  refine ⟨?_, ?_, ?_, ?_⟩
  · unfold theory_bdd_pick
    rw [hb]
    rfl
  · unfold theory_bdd_pick_all
    rw [hb]
    rfl
  · unfold theory_sdd_pick
    rw [hs]
    rfl
  · unfold theory_sdd_pick_all
    rw [hs]
    rfl

/-- Witness for C10: concrete diagrams rooted at the false node. -/
theorem tdd_c10_pick_on_unsat_witness :
    theory_bdd_is_sat ⟨CBDD.leaf false, [], [], []⟩ = false ∧
    theory_sdd_is_sat ⟨SddNode.fls, [], []⟩ = false ∧
    (theory_bdd_pick ⟨CBDD.leaf false, [], [], []⟩ = none ∧
      theory_bdd_pick_all ⟨CBDD.leaf false, [], [], []⟩ = some [] ∧
      theory_sdd_pick ⟨SddNode.fls, [], []⟩ = none ∧
      theory_sdd_pick_all ⟨SddNode.fls, [], []⟩ = []) :=
  ⟨by decide, rfl,
   tdd_c10_pick_on_unsat ⟨CBDD.leaf false, [], [], []⟩ ⟨SddNode.fls, [], []⟩
     (by decide) rfl⟩

/- ---------------------------------------------------------------------
   Section 9: the disjoint-set structure
   (src/theorydd/util/disjoint_set.py)
--------------------------------------------------------------------- -/

/-- A node of the disjoint set: index of the parent, rank, and the data
(a variable or an atom of the formula). -/
structure UFNode (α : Type) where
  parent : Nat
  rank : Nat
  data : α
deriving DecidableEq, Repr

/-- The parent of index i, reading the node list (an out-of-range index,
a Python IndexError, is modelled as a fixpoint and never reached in the
translated code paths). -/
def parentD {α : Type} (nodes : List (UFNode α)) (i : Nat) : Nat :=
  match nodes.get? i with
  | some nd => nd.parent
  | none => i

/-- The rank of index i. -/
def rankD {α : Type} (nodes : List (UFNode α)) (i : Nat) : Nat :=
  match nodes.get? i with
  | some nd => nd.rank
  | none => 0

/-- Replace the parent of index i (set_parent on the node). -/
def uf_set_parent {α : Type} (nodes : List (UFNode α)) (i p : Nat) :
    List (UFNode α) :=
  match nodes.get? i with
  | some nd => nodes.set i ⟨p, nd.rank, nd.data⟩
  | none => nodes

/-- Replace the rank of index i (set_rank on the node). -/
def uf_set_rank {α : Type} (nodes : List (UFNode α)) (i r : Nat) :
    List (UFNode α) :=
  match nodes.get? i with
  | some nd => nodes.set i ⟨nd.parent, r, nd.data⟩
  | none => nodes

/-- Translation of DisjointSet._find with path compression; the fuel is
the node count, which always suffices on well-formed states. -/
def uf_find_aux {α : Type} : Nat → List (UFNode α) → Nat →
    List (UFNode α) × Nat
  | 0, nodes, index => (nodes, index)
  | fuel + 1, nodes, index =>
    let parent := parentD nodes index
    if parent = index then (nodes, index)
    else
      let r := uf_find_aux fuel nodes parent
      (uf_set_parent r.1 index r.2, r.2)

/-- Translation of DisjointSet._union with union by rank (both finds run
first, with their path compression). -/
def uf_union {α : Type} (nodes : List (UFNode α)) (index1 index2 : Nat) :
    List (UFNode α) :=
  let f1 := uf_find_aux nodes.length nodes index1
  let f2 := uf_find_aux f1.1.length f1.1 index2
  let root_a := f1.2
  let root_b := f2.2
  let nodes2 := f2.1
  if root_a = root_b then nodes2
  else
    let rank_a := rankD nodes2 root_a
    let rank_b := rankD nodes2 root_b
    let new_rank := rank_a + rank_b
    if rank_a ≥ rank_b then
      uf_set_rank (uf_set_parent nodes2 root_b root_a) root_a new_rank
    else
      uf_set_rank (uf_set_parent nodes2 root_a root_b) root_b new_rank

/-- k-fold parent iteration. -/
def iterP {α : Type} (nodes : List (UFNode α)) : Nat → Nat → Nat
  | 0, i => i
  | k + 1, i => iterP nodes k (parentD nodes i)

/-- Index i is a root. -/
def IsRootAt {α : Type} (nodes : List (UFNode α)) (i : Nat) : Prop :=
  parentD nodes i = i

/-- Index i reaches the root r along its parent chain. -/
def ReachesN {α : Type} (nodes : List (UFNode α)) (i r : Nat) : Prop :=
  ∃ k, iterP nodes k i = r ∧ IsRootAt nodes r

/-- Two indices lie in the same class: they reach a common root. -/
def SameRootN {α : Type} (nodes : List (UFNode α)) (i j : Nat) : Prop :=
  ∃ r, ReachesN nodes i r ∧ ReachesN nodes j r

lemma iterP_add {α : Type} (nodes : List (UFNode α)) (x y i : Nat) :
    iterP nodes (x + y) i = iterP nodes y (iterP nodes x i) := by
  induction x generalizing i with
  | zero =>
    rw [Nat.zero_add]
    rfl
  | succ x ih =>
    rw [show x + 1 + y = (x + y) + 1 from by omega]
    show iterP nodes (x + y) (parentD nodes i) = _
    rw [ih]
    rfl

lemma iterP_root {α : Type} {nodes : List (UFNode α)} {r : Nat}
    (h : IsRootAt nodes r) : ∀ k, iterP nodes k r = r := by
  intro k
  induction k with
  | zero => rfl
  | succ k ih =>
    show iterP nodes k (parentD nodes r) = r
    rw [h]
    exact ih

lemma reaches_unique {α : Type} {nodes : List (UFNode α)} {i r1 r2 : Nat}
    (h1 : ReachesN nodes i r1) (h2 : ReachesN nodes i r2) : r1 = r2 := by
  obtain ⟨k1, hk1, hr1⟩ := h1
  obtain ⟨k2, hk2, hr2⟩ := h2
  rcases Nat.le_total k1 k2 with h | h
  · have e := iterP_add nodes k1 (k2 - k1) i
    rw [Nat.add_sub_cancel' h, hk2, hk1, iterP_root hr1] at e
    exact e.symm
  · have e := iterP_add nodes k2 (k1 - k2) i
    rw [Nat.add_sub_cancel' h, hk1, hk2, iterP_root hr2] at e
    exact e

lemma reaches_of_root {α : Type} {nodes : List (UFNode α)} {i : Nat}
    (h : IsRootAt nodes i) : ReachesN nodes i i :=
  ⟨0, rfl, h⟩

lemma reaches_step {α : Type} {nodes : List (UFNode α)} {i r : Nat}
    (h : ReachesN nodes (parentD nodes i) r) : ReachesN nodes i r := by
  obtain ⟨k, hk, hr⟩ := h
  exact ⟨k + 1, by rw [Nat.add_comm, iterP_add]; exact hk, hr⟩

lemma reaches_unstep {α : Type} {nodes : List (UFNode α)} {i r : Nat}
    (h : ReachesN nodes i r) (hne : ¬ IsRootAt nodes i) :
    ReachesN nodes (parentD nodes i) r := by
  obtain ⟨k, hk, hr⟩ := h
  cases k with
  | zero =>
    have hir : i = r := hk
    rw [← hir] at hr
    exact absurd hr hne
  | succ k =>
    refine ⟨k, ?_, hr⟩
    rw [← hk, show k + 1 = 1 + k from Nat.add_comm _ _, iterP_add]
    rfl

lemma iterP_bound {α : Type} {nodes : List (UFNode α)}
    (hb : ∀ i < nodes.length, parentD nodes i < nodes.length)
    {i : Nat} (hi : i < nodes.length) :
    ∀ k, iterP nodes k i < nodes.length := by
  intro k
  induction k generalizing i with
  | zero => exact hi
  | succ k ih =>
    show iterP nodes k (parentD nodes i) < _
    exact ih (hb i hi)

lemma iterP_shorten {α : Type} (nodes : List (UFNode α)) {i a b k0 : Nat}
    (hlt : a < b) (heq : iterP nodes a i = iterP nodes b i) (hk0 : a ≤ k0) :
    iterP nodes k0 i = iterP nodes (a + (k0 - a) % (b - a)) i := by
  have hcyc : ∀ q, iterP nodes (q * (b - a)) (iterP nodes a i) =
      iterP nodes a i := by
    intro q
    induction q with
    | zero =>
      rw [Nat.zero_mul]
      rfl
    | succ q ih =>
      rw [Nat.succ_mul, iterP_add, ih, ← iterP_add,
        Nat.add_sub_cancel' (Nat.le_of_lt hlt)]
      exact heq.symm
  have hdecomp : ((k0 - a) / (b - a)) * (b - a) + (k0 - a) % (b - a) =
      k0 - a := by
    rw [Nat.mul_comm]
    exact Nat.div_add_mod _ _
  calc iterP nodes k0 i
      = iterP nodes (a + (k0 - a)) i := by
        congr 1
        omega
    _ = iterP nodes (k0 - a) (iterP nodes a i) := iterP_add nodes a (k0 - a) i
    _ = iterP nodes (((k0 - a) / (b - a)) * (b - a) + (k0 - a) % (b - a))
          (iterP nodes a i) := by rw [hdecomp]
    _ = iterP nodes ((k0 - a) % (b - a))
          (iterP nodes (((k0 - a) / (b - a)) * (b - a)) (iterP nodes a i)) :=
        iterP_add nodes _ _ _
    _ = iterP nodes ((k0 - a) % (b - a)) (iterP nodes a i) := by rw [hcyc]
    _ = iterP nodes (a + (k0 - a) % (b - a)) i := (iterP_add nodes _ _ _).symm

/-- Any reached root has a witness chain no longer than the node count:
iterating the parent map over more than n steps from an index below n
must revisit an index, and the cycle can be cut out of the witness. -/
lemma reaches_short_witness {α : Type} {nodes : List (UFNode α)}
    (hb : ∀ i < nodes.length, parentD nodes i < nodes.length)
    {i r : Nat} (hi : i < nodes.length) (h : ReachesN nodes i r) :
    ∃ k ≤ nodes.length, iterP nodes k i = r ∧ IsRootAt nodes r := by
  obtain ⟨k0, hk0, hroot⟩ := h
  by_cases hsmall : k0 ≤ nodes.length
  · exact ⟨k0, hsmall, hk0, hroot⟩
  · push_neg at hsmall
    have hmaps : ∀ m ∈ Finset.range (nodes.length + 1),
        iterP nodes m i ∈ Finset.range nodes.length := by
      intro m _
      exact Finset.mem_range.mpr (iterP_bound hb hi m)
    have hcard : (Finset.range nodes.length).card <
        (Finset.range (nodes.length + 1)).card := by
      simp
    obtain ⟨x, hx, y, hy, hxy, hmapeq⟩ :=
      Finset.exists_ne_map_eq_of_card_lt_of_maps_to hcard hmaps
    rw [Finset.mem_range] at hx hy
    have hmain : ∀ a b : Nat, a < b → b ≤ nodes.length →
        iterP nodes a i = iterP nodes b i →
        ∃ k ≤ nodes.length, iterP nodes k i = r ∧ IsRootAt nodes r := by
      intro a b hab hbn habeq
      have hk0a : a ≤ k0 := by omega
      have hsh := iterP_shorten nodes hab habeq hk0a
      have hmod : (k0 - a) % (b - a) < b - a := Nat.mod_lt _ (by omega)
      exact ⟨a + (k0 - a) % (b - a), by omega, by rw [← hsh]; exact hk0, hroot⟩
    rcases Nat.lt_or_ge x y with hlt | hge
    · exact hmain x y hlt (by omega) hmapeq
    · exact hmain y x (by omega) (by omega) hmapeq.symm

lemma list_set_self {α : Type} (l : List α) (i : Nat) (a : α)
    (h : l.get? i = some a) : l.set i a = l := by
  induction l generalizing i with
  | nil => rfl
  | cons x rest ih =>
    cases i with
    | zero =>
      have hxa : x = a := Option.some.inj h
      rw [List.set, hxa]
    | succ i =>
      rw [List.set, ih i h]

lemma get?_isSome_of_lt {α : Type} (l : List α) {i : Nat} (h : i < l.length) :
    ∃ a, l.get? i = some a := by
  cases hx : l.get? i with
  | some a => exact ⟨a, rfl⟩
  | none =>
    have := List.get?_eq_none.mp hx
    omega

lemma parentD_set_parent {α : Type} (nodes : List (UFNode α)) (i p : Nat)
    (hi : i < nodes.length) (j : Nat) :
    parentD (uf_set_parent nodes i p) j = if j = i then p else parentD nodes j := by
  obtain ⟨nd, hnd⟩ := get?_isSome_of_lt nodes hi
  unfold uf_set_parent
  rw [hnd]
  unfold parentD
  by_cases hji : j = i
  · subst hji
    rw [List.get?_set_eq_of_lt _ hi, if_pos rfl]
  · rw [List.get?_set_ne _ _ (Ne.symm hji), if_neg hji]

lemma length_set_parent {α : Type} (nodes : List (UFNode α)) (i p : Nat) :
    (uf_set_parent nodes i p).length = nodes.length := by
  unfold uf_set_parent
  cases nodes.get? i <;> simp

lemma rankD_set_parent {α : Type} (nodes : List (UFNode α)) (i p : Nat)
    (j : Nat) : rankD (uf_set_parent nodes i p) j = rankD nodes j := by
  unfold uf_set_parent
  cases hnd : nodes.get? i with
  | none => rfl
  | some nd =>
    have hi : i < nodes.length := by
      by_contra hcon
      rw [List.get?_eq_none.mpr (by omega)] at hnd
      exact Option.noConfusion hnd
    unfold rankD
    by_cases hji : j = i
    · subst hji
      rw [List.get?_set_eq_of_lt _ hi, hnd]
    · rw [List.get?_set_ne _ _ (Ne.symm hji)]

lemma data_set_parent {α : Type} (nodes : List (UFNode α)) (i p : Nat) :
    (uf_set_parent nodes i p).map (·.data) = nodes.map (·.data) := by
  unfold uf_set_parent
  cases hnd : nodes.get? i with
  | none => rfl
  | some nd =>
    rw [List.map_set]
    refine list_set_self _ _ _ ?_
    rw [List.get?_map, hnd]
    rfl

lemma parentD_set_rank {α : Type} (nodes : List (UFNode α)) (i r : Nat)
    (j : Nat) : parentD (uf_set_rank nodes i r) j = parentD nodes j := by
  unfold uf_set_rank
  cases hnd : nodes.get? i with
  | none => rfl
  | some nd =>
    have hi : i < nodes.length := by
      by_contra hcon
      rw [List.get?_eq_none.mpr (by omega)] at hnd
      exact Option.noConfusion hnd
    unfold parentD
    by_cases hji : j = i
    · subst hji
      rw [List.get?_set_eq_of_lt _ hi, hnd]
    · rw [List.get?_set_ne _ _ (Ne.symm hji)]

lemma length_set_rank {α : Type} (nodes : List (UFNode α)) (i r : Nat) :
    (uf_set_rank nodes i r).length = nodes.length := by
  unfold uf_set_rank
  cases nodes.get? i <;> simp

lemma data_set_rank {α : Type} (nodes : List (UFNode α)) (i r : Nat) :
    (uf_set_rank nodes i r).map (·.data) = nodes.map (·.data) := by
  unfold uf_set_rank
  cases hnd : nodes.get? i with
  | none => rfl
  | some nd =>
    rw [List.map_set]
    refine list_set_self _ _ _ ?_
    rw [List.get?_map, hnd]
    rfl

lemma iterP_congr {α : Type} {nodes1 nodes2 : List (UFNode α)}
    (h : ∀ j, parentD nodes1 j = parentD nodes2 j) :
    ∀ k j, iterP nodes1 k j = iterP nodes2 k j := by
  intro k
  induction k with
  | zero => intro j; rfl
  | succ k ih =>
    intro j
    show iterP nodes1 k (parentD nodes1 j) = iterP nodes2 k (parentD nodes2 j)
    rw [h j, ih]

lemma reaches_congr {α : Type} {nodes1 nodes2 : List (UFNode α)}
    (h : ∀ j, parentD nodes1 j = parentD nodes2 j) {j t : Nat}
    (hr : ReachesN nodes1 j t) : ReachesN nodes2 j t := by
  obtain ⟨k, hk, hroot⟩ := hr
  refine ⟨k, by rw [← iterP_congr h]; exact hk, ?_⟩
  show parentD nodes2 t = t
  rw [← h t]
  exact hroot

/-- Redirecting an index straight to its own root keeps every class
reaching the same roots (the path-compression step). -/
lemma set_parent_root_reaches {α : Type} {nodes : List (UFNode α)} {i r0 : Nat}
    (hi : i < nodes.length) (hri : ReachesN nodes i r0) :
    ∀ k j t, iterP nodes k j = t → IsRootAt nodes t →
      ReachesN (uf_set_parent nodes i r0) j t := by
  intro k
  induction k using Nat.strong_induction_on with
  | _ k ih =>
    intro j t hk hroot
    by_cases hj : IsRootAt nodes j
    · have hjt : j = t := by rw [← hk, iterP_root hj]
      subst hjt
      by_cases hji : j = i
      · have hr0 : r0 = j := by
          have hx : ReachesN nodes j r0 := hji ▸ hri
          exact reaches_unique hx (reaches_of_root hj)
        refine reaches_of_root ?_
        show parentD (uf_set_parent nodes i r0) j = j
        rw [parentD_set_parent _ _ _ hi, if_pos hji, hr0]
      · refine reaches_of_root ?_
        show parentD (uf_set_parent nodes i r0) j = j
        rw [parentD_set_parent _ _ _ hi, if_neg hji]
        exact hj
    · cases k with
      | zero =>
        have hjt : j = t := hk
        rw [← hjt] at hroot
        exact absurd hroot hj
      | succ k =>
        have hstep : iterP nodes k (parentD nodes j) = t := hk
        by_cases hji : j = i
        · subst hji
          have ht : t = r0 := reaches_unique ⟨k + 1, hk, hroot⟩ hri
          subst ht
          have htj : t ≠ j := by
            intro h
            rw [h] at hroot
            exact hj hroot
          refine ⟨1, ?_, ?_⟩
          · show parentD (uf_set_parent nodes j t) j = t
            rw [parentD_set_parent _ _ _ hi, if_pos rfl]
          · show parentD (uf_set_parent nodes j t) t = t
            rw [parentD_set_parent _ _ _ hi, if_neg htj]
            exact hroot
        · have hres := ih k (by omega) (parentD nodes j) t hstep hroot
          have hpar : parentD (uf_set_parent nodes i r0) j = parentD nodes j := by
            rw [parentD_set_parent _ _ _ hi, if_neg hji]
          refine reaches_step ?_
          rw [hpar]
          exact hres

/-- Full specification of DisjointSet._find: given enough fuel to reach
the root, it returns the root of the class of the index, keeps the length,
data and ranks, keeps parents in range, and keeps every class reaching
its root (path compression never splits or merges classes). -/
lemma uf_find_aux_spec {α : Type} :
    ∀ (fuel : Nat) (nodes : List (UFNode α)) (i s : Nat),
      (∀ j, j < nodes.length → parentD nodes j < nodes.length) →
      i < nodes.length →
      (∃ k, k ≤ fuel ∧ iterP nodes k i = s ∧ IsRootAt nodes s) →
      (uf_find_aux fuel nodes i).2 = s ∧
      (uf_find_aux fuel nodes i).1.length = nodes.length ∧
      (uf_find_aux fuel nodes i).1.map (·.data) = nodes.map (·.data) ∧
      (∀ j, rankD (uf_find_aux fuel nodes i).1 j = rankD nodes j) ∧
      (∀ j, j < nodes.length →
        parentD (uf_find_aux fuel nodes i).1 j < nodes.length) ∧
      (∀ j t, ReachesN nodes j t → ReachesN (uf_find_aux fuel nodes i).1 j t) := by
  intro fuel
  induction fuel with
  | zero =>
    intro nodes i s hb _ hreach
    obtain ⟨k, hk, hiter, hroot⟩ := hreach
    have hk0 : k = 0 := by omega
    subst hk0
    have his : i = s := hiter
    exact ⟨his, rfl, rfl, fun _ => rfl, hb, fun _ _ h => h⟩
  | succ fuel ih =>
    intro nodes i s hb hi hreach
    by_cases hp : parentD nodes i = i
    · have hdef : uf_find_aux (fuel + 1) nodes i = (nodes, i) := by
        show (if parentD nodes i = i then (nodes, i)
          else ((uf_set_parent (uf_find_aux fuel nodes (parentD nodes i)).1 i
              (uf_find_aux fuel nodes (parentD nodes i)).2),
            (uf_find_aux fuel nodes (parentD nodes i)).2)) = (nodes, i)
        rw [if_pos hp]
      obtain ⟨k, _, hiter, hroot⟩ := hreach
      have hsi : s = i :=
        reaches_unique (⟨k, hiter, hroot⟩ : ReachesN nodes i s)
          (reaches_of_root hp)
      rw [hdef, hsi]
      exact ⟨rfl, rfl, rfl, fun _ => rfl, hb, fun _ _ h => h⟩
    · have hdef : uf_find_aux (fuel + 1) nodes i =
          ((uf_set_parent (uf_find_aux fuel nodes (parentD nodes i)).1 i
              (uf_find_aux fuel nodes (parentD nodes i)).2),
            (uf_find_aux fuel nodes (parentD nodes i)).2) := by
        show (if parentD nodes i = i then (nodes, i)
          else ((uf_set_parent (uf_find_aux fuel nodes (parentD nodes i)).1 i
              (uf_find_aux fuel nodes (parentD nodes i)).2),
            (uf_find_aux fuel nodes (parentD nodes i)).2)) = _
        rw [if_neg hp]
      obtain ⟨k, hk, hiter, hroot⟩ := hreach
      cases k with
      | zero =>
        have his : i = s := hiter
        rw [← his] at hroot
        exact absurd hroot hp
      | succ k =>
        have hstep : iterP nodes k (parentD nodes i) = s := hiter
        have hplt : parentD nodes i < nodes.length := hb i hi
        obtain ⟨hr1, hlen1, hdata1, hrank1, hb1, hres1⟩ :=
          ih nodes (parentD nodes i) s hb hplt ⟨k, by omega, hstep, hroot⟩
        have hi1 : i < (uf_find_aux fuel nodes (parentD nodes i)).1.length := by
          rw [hlen1]
          exact hi
        have hreach_i : ReachesN nodes i s := ⟨k + 1, hiter, hroot⟩
        have hri1 : ReachesN (uf_find_aux fuel nodes (parentD nodes i)).1 i
            ((uf_find_aux fuel nodes (parentD nodes i)).2) := by
          rw [hr1]
          exact hres1 i s hreach_i
        have hslt : s < nodes.length := by
          rw [← hiter]
          exact iterP_bound hb hi (k + 1)
        rw [hdef]
        refine ⟨hr1, ?_, ?_, ?_, ?_, ?_⟩
        · rw [length_set_parent, hlen1]
        · rw [data_set_parent, hdata1]
        · intro j
          rw [rankD_set_parent, hrank1]
        · intro j hj
          rw [parentD_set_parent _ _ _ hi1 j]
          by_cases hji : j = i
          · rw [if_pos hji, hr1]
            exact hslt
          · rw [if_neg hji]
            exact hb1 j hj
        · intro j t h
          obtain ⟨k2, hk2, hroot2⟩ := hres1 j t h
          exact set_parent_root_reaches hi1 hri1 k2 j t hk2 hroot2

lemma reaches_lt {α : Type} {nodes : List (UFNode α)}
    (hb : ∀ j, j < nodes.length → parentD nodes j < nodes.length)
    {j t : Nat} (hj : j < nodes.length) (h : ReachesN nodes j t) :
    t < nodes.length := by
  obtain ⟨k, hk, _⟩ := h
  rw [← hk]
  exact iterP_bound hb hj k

/-- Linking the root rb under the root ra sends every class that reached
rb to ra and leaves all other classes unchanged. -/
lemma link_reaches {α : Type} {nodes : List (UFNode α)} {ra rb : Nat}
    (hroot_a : IsRootAt nodes ra) (hroot_b : IsRootAt nodes rb)
    (hne : rb ≠ ra) (hrb_lt : rb < nodes.length) :
    ∀ k j t, iterP nodes k j = t → IsRootAt nodes t →
      ReachesN (uf_set_parent nodes rb ra) j (if t = rb then ra else t) := by
  intro k
  induction k using Nat.strong_induction_on with
  | _ k ih =>
    intro j t hk hroot
    by_cases hj : IsRootAt nodes j
    · have hjt : j = t := by rw [← hk, iterP_root hj]
      subst hjt
      by_cases hjb : j = rb
      · rw [if_pos hjb]
        subst hjb
        refine ⟨1, ?_, ?_⟩
        · show parentD (uf_set_parent nodes j ra) j = ra
          rw [parentD_set_parent _ _ _ hrb_lt, if_pos rfl]
        · show parentD (uf_set_parent nodes j ra) ra = ra
          rw [parentD_set_parent _ _ _ hrb_lt, if_neg (Ne.symm hne)]
          exact hroot_a
      · rw [if_neg hjb]
        refine reaches_of_root ?_
        show parentD (uf_set_parent nodes rb ra) j = j
        rw [parentD_set_parent _ _ _ hrb_lt, if_neg hjb]
        exact hj
    · cases k with
      | zero =>
        have hjt : j = t := hk
        rw [← hjt] at hroot
        exact absurd hroot hj
      | succ k =>
        have hstep : iterP nodes k (parentD nodes j) = t := hk
        have hjb : j ≠ rb := by
          intro h
          rw [h] at hj
          exact hj hroot_b
        have hres := ih k (by omega) (parentD nodes j) t hstep hroot
        refine reaches_step ?_
        have hpar : parentD (uf_set_parent nodes rb ra) j = parentD nodes j := by
          rw [parentD_set_parent _ _ _ hrb_lt, if_neg hjb]
        rw [hpar]
        exact hres

/-- The effect of the parent link followed by a rank update, as performed
by _union after both finds. -/
lemma link_spec {α : Type} (N2 : List (UFNode α)) (ra rb x nr : Nat)
    (hroot_a : IsRootAt N2 ra) (hroot_b : IsRootAt N2 rb) (hne : rb ≠ ra)
    (hb2 : ∀ j, j < N2.length → parentD N2 j < N2.length)
    (hra_lt : ra < N2.length) (hrb_lt : rb < N2.length) :
    (uf_set_rank (uf_set_parent N2 rb ra) x nr).length = N2.length ∧
    (uf_set_rank (uf_set_parent N2 rb ra) x nr).map (·.data) =
      N2.map (·.data) ∧
    (∀ j, j < N2.length →
      parentD (uf_set_rank (uf_set_parent N2 rb ra) x nr) j < N2.length) ∧
    (∀ j t, ReachesN N2 j t →
      ReachesN (uf_set_rank (uf_set_parent N2 rb ra) x nr)
        j (if t = rb then ra else t)) := by
  have hcongr : ∀ j, parentD (uf_set_parent N2 rb ra) j =
      parentD (uf_set_rank (uf_set_parent N2 rb ra) x nr) j := by
    intro j
    rw [parentD_set_rank]
  refine ⟨?_, ?_, ?_, ?_⟩
  · rw [length_set_rank, length_set_parent]
  · rw [data_set_rank, data_set_parent]
  · intro j hj
    rw [← hcongr j, parentD_set_parent _ _ _ hrb_lt]
    by_cases hjb : j = rb
    · rw [if_pos hjb]
      exact hra_lt
    · rw [if_neg hjb]
      exact hb2 j hj
  · intro j t h
    obtain ⟨k, hk, hroot⟩ := h
    exact reaches_congr hcongr (link_reaches hroot_a hroot_b hne hrb_lt k j t hk hroot)

/-- Full specification of DisjointSet._union: it keeps length, data and
parent bounds, keeps every index rooted, never splits an existing class,
and puts the two given indices into one class. -/
lemma uf_union_spec {α : Type} (nodes : List (UFNode α)) (i1 i2 : Nat)
    (hb : ∀ j, j < nodes.length → parentD nodes j < nodes.length)
    (hrooted : ∀ j, j < nodes.length → ∃ t, ReachesN nodes j t)
    (h1 : i1 < nodes.length) (h2 : i2 < nodes.length) :
    (uf_union nodes i1 i2).length = nodes.length ∧
    (uf_union nodes i1 i2).map (·.data) = nodes.map (·.data) ∧
    (∀ j, j < nodes.length → parentD (uf_union nodes i1 i2) j < nodes.length) ∧
    (∀ j, j < nodes.length → ∃ t, ReachesN (uf_union nodes i1 i2) j t) ∧
    (∀ a b, SameRootN nodes a b → SameRootN (uf_union nodes i1 i2) a b) ∧
    SameRootN (uf_union nodes i1 i2) i1 i2 := by
  obtain ⟨t1, ht1⟩ := hrooted i1 h1
  obtain ⟨k1, hk1le, hk1, hk1root⟩ := reaches_short_witness hb h1 ht1
  obtain ⟨hra, hlen1, hdata1, hrank1, hb1, hpres1⟩ :=
    uf_find_aux_spec nodes.length nodes i1 t1 hb h1 ⟨k1, hk1le, hk1, hk1root⟩
  set N1 := (uf_find_aux nodes.length nodes i1).1 with hN1
  obtain ⟨t2, ht2⟩ := hrooted i2 h2
  have ht2' : ReachesN N1 i2 t2 := hpres1 i2 t2 ht2
  have hb1' : ∀ j, j < N1.length → parentD N1 j < N1.length := by
    rw [hlen1]
    exact hb1
  have h2' : i2 < N1.length := by
    rw [hlen1]
    exact h2
  obtain ⟨k2, hk2le, hk2, hk2root⟩ := reaches_short_witness hb1' h2' ht2'
  obtain ⟨hrb, hlen2, hdata2, hrank2, hb2, hpres2⟩ :=
    uf_find_aux_spec N1.length N1 i2 t2 hb1' h2' ⟨k2, hk2le, hk2, hk2root⟩
  set N2 := (uf_find_aux N1.length N1 i2).1 with hN2
  have hlenN2 : N2.length = nodes.length := by rw [hlen2, hlen1]
  have hdataN2 : N2.map (·.data) = nodes.map (·.data) := by rw [hdata2, hdata1]
  have hbN2 : ∀ j, j < N2.length → parentD N2 j < N2.length := by
    rw [hlen2]
    exact hb2
  have hpres12 : ∀ j t, ReachesN nodes j t → ReachesN N2 j t :=
    fun j t h => hpres2 j t (hpres1 j t h)
  have hreN2i1 : ReachesN N2 i1 t1 := hpres12 i1 t1 ht1
  have hreN2i2 : ReachesN N2 i2 t2 := hpres12 i2 t2 ht2
  have hrootN2t1 : IsRootAt N2 t1 := by
    obtain ⟨k, _, h⟩ := hreN2i1
    exact h
  have hrootN2t2 : IsRootAt N2 t2 := by
    obtain ⟨k, _, h⟩ := hreN2i2
    exact h
  have ht1lt : t1 < N2.length := reaches_lt hbN2 (by rw [hlenN2]; exact h1) hreN2i1
  have ht2lt : t2 < N2.length := reaches_lt hbN2 (by rw [hlenN2]; exact h2) hreN2i2
  have hdef : uf_union nodes i1 i2 =
      (if (uf_find_aux nodes.length nodes i1).2 =
          (uf_find_aux N1.length N1 i2).2 then N2
        else
          if rankD N2 (uf_find_aux nodes.length nodes i1).2 ≥
              rankD N2 (uf_find_aux N1.length N1 i2).2 then
            uf_set_rank
              (uf_set_parent N2 (uf_find_aux N1.length N1 i2).2
                (uf_find_aux nodes.length nodes i1).2)
              (uf_find_aux nodes.length nodes i1).2
              (rankD N2 (uf_find_aux nodes.length nodes i1).2 +
                rankD N2 (uf_find_aux N1.length N1 i2).2)
          else
            uf_set_rank
              (uf_set_parent N2 (uf_find_aux nodes.length nodes i1).2
                (uf_find_aux N1.length N1 i2).2)
              (uf_find_aux N1.length N1 i2).2
              (rankD N2 (uf_find_aux nodes.length nodes i1).2 +
                rankD N2 (uf_find_aux N1.length N1 i2).2)) := rfl
  rw [hdef, hra, hrb]
  by_cases heq : t1 = t2
  · rw [if_pos heq]
    refine ⟨hlenN2, hdataN2, ?_, ?_, ?_, ?_⟩
    · rw [← hlen1]
      exact hb2
    · intro j hj
      obtain ⟨t, ht⟩ := hrooted j hj
      exact ⟨t, hpres12 j t ht⟩
    · intro a b hab
      obtain ⟨r, hr1, hr2⟩ := hab
      exact ⟨r, hpres12 a r hr1, hpres12 b r hr2⟩
    · exact ⟨t1, hreN2i1, heq ▸ hreN2i2⟩
  · rw [if_neg heq]
    by_cases hrk : rankD N2 t1 ≥ rankD N2 t2
    · rw [if_pos hrk]
      obtain ⟨hl3, hd3, hb3, hp3⟩ :=
        link_spec N2 t1 t2 t1 (rankD N2 t1 + rankD N2 t2)
          hrootN2t1 hrootN2t2 (fun h => heq h.symm) hbN2 ht1lt ht2lt
      refine ⟨by rw [hl3, hlenN2], by rw [hd3, hdataN2], ?_, ?_, ?_, ?_⟩
      · rw [← hlenN2]
        exact hb3
      · intro j hj
        obtain ⟨t, ht⟩ := hrooted j hj
        exact ⟨_, hp3 j t (hpres12 j t ht)⟩
      · intro a b hab
        obtain ⟨r, hra2, hrb2⟩ := hab
        exact ⟨_, hp3 a r (hpres12 a r hra2), hp3 b r (hpres12 b r hrb2)⟩
      · refine ⟨t1, ?_, ?_⟩
        · have := hp3 i1 t1 hreN2i1
          rw [if_neg heq] at this
          exact this
        · have := hp3 i2 t2 hreN2i2
          rw [if_pos rfl] at this
          exact this
    · rw [if_neg hrk]
      obtain ⟨hl3, hd3, hb3, hp3⟩ :=
        link_spec N2 t2 t1 t2 (rankD N2 t1 + rankD N2 t2)
          hrootN2t2 hrootN2t1 heq hbN2 ht2lt ht1lt
      refine ⟨by rw [hl3, hlenN2], by rw [hd3, hdataN2], ?_, ?_, ?_, ?_⟩
      · rw [← hlenN2]
        exact hb3
      · intro j hj
        obtain ⟨t, ht⟩ := hrooted j hj
        exact ⟨_, hp3 j t (hpres12 j t ht)⟩
      · intro a b hab
        obtain ⟨r, hra2, hrb2⟩ := hab
        exact ⟨_, hp3 a r (hpres12 a r hra2), hp3 b r (hpres12 b r hrb2)⟩
      · refine ⟨t2, ?_, ?_⟩
        · have := hp3 i1 t1 hreN2i1
          rw [if_pos rfl] at this
          exact this
        · have := hp3 i2 t2 hreN2i2
          rw [if_neg (fun h => heq h.symm)] at this
          exact this

/-- The data stored at an index. -/
def dataD {α : Type} (nodes : List (UFNode α)) (i : Nat) : Option α :=
  (nodes.get? i).map (·.data)

/-- sets[root].add(data): looks the root up in the insertion-ordered
dictionary, creating an empty set first when absent. -/
def add_to_sets {α : Type} [DecidableEq α] (sets : List (Nat × List α))
    (root : Nat) (d : α) : List (Nat × List α) :=
  match sets with
  | [] => [(root, [d])]
  | (r, s) :: rest =>
    if r = root then (r, if d ∈ s then s else s ++ [d]) :: rest
    else (r, s) :: add_to_sets rest root d

/-- Dictionary lookup in the sets accumulator. -/
def sets_get {α : Type} (sets : List (Nat × List α)) (r : Nat) :
    Option (List α) :=
  (sets.find? (fun p => p.1 == r)).map Prod.snd

/-- Translation of the loop of DisjointSet.get_sets: for every index in
order, find its root (with path compression) and add its data to the set
of that root. -/
def uf_get_sets_go {α : Type} [DecidableEq α] :
    List Nat → List (UFNode α) → List (Nat × List α) → List (Nat × List α)
  | [], _, sets => sets
  | i :: rest, nodes, sets =>
    let f := uf_find_aux nodes.length nodes i
    match f.1.get? i with
    | none => uf_get_sets_go rest f.1 sets
    | some nd => uf_get_sets_go rest f.1 (add_to_sets sets f.2 nd.data)

/-- Translation of DisjointSet.get_sets (the returned dictionary, keyed
by root index). -/
def uf_get_sets {α : Type} [DecidableEq α] (nodes : List (UFNode α)) :
    List (Nat × List α) :=
  uf_get_sets_go (List.range nodes.length) nodes []

lemma add_to_sets_cons_eq {α : Type} [DecidableEq α] {r root : Nat}
    (s : List α) (rest : List (Nat × List α)) (d : α) (h : r = root) :
    add_to_sets ((r, s) :: rest) root d =
      (r, if d ∈ s then s else s ++ [d]) :: rest := by
  show (if r = root then (r, if d ∈ s then s else s ++ [d]) :: rest
    else (r, s) :: add_to_sets rest root d) = _
  rw [if_pos h]

lemma add_to_sets_cons_ne {α : Type} [DecidableEq α] {r root : Nat}
    (s : List α) (rest : List (Nat × List α)) (d : α) (h : r ≠ root) :
    add_to_sets ((r, s) :: rest) root d = (r, s) :: add_to_sets rest root d := by
  show (if r = root then (r, if d ∈ s then s else s ++ [d]) :: rest
    else (r, s) :: add_to_sets rest root d) = _
  rw [if_neg h]

lemma sets_get_cons_eq {α : Type} {r root : Nat} (s : List α)
    (rest : List (Nat × List α)) (h : r = root) :
    sets_get ((r, s) :: rest) root = some s := by
  unfold sets_get
  rw [List.find?_cons_of_pos _ (by simp [h])]
  rfl

lemma sets_get_cons_ne {α : Type} {r root : Nat} (s : List α)
    (rest : List (Nat × List α)) (h : r ≠ root) :
    sets_get ((r, s) :: rest) root = sets_get rest root := by
  unfold sets_get
  rw [List.find?_cons_of_neg _ (by simp [h])]

lemma sets_get_add_same {α : Type} [DecidableEq α]
    (sets : List (Nat × List α)) (root : Nat) (d : α) :
    ∃ s, sets_get (add_to_sets sets root d) root = some s ∧ d ∈ s ∧
      ∀ d', d' ∈ s ↔ d' ∈ (sets_get sets root).getD [] ∨ d' = d := by
  induction sets with
  | nil =>
    refine ⟨[d], ?_, List.mem_singleton.mpr rfl, ?_⟩
    · show sets_get [(root, [d])] root = some [d]
      exact sets_get_cons_eq _ _ rfl
    · intro d'
      simp [sets_get]
  | cons p rest ih =>
    obtain ⟨r, s⟩ := p
    by_cases hr : r = root
    · rw [add_to_sets_cons_eq _ _ _ hr, sets_get_cons_eq _ _ hr,
        sets_get_cons_eq _ _ hr]
      refine ⟨_, rfl, ?_, ?_⟩
      · by_cases hd : d ∈ s
        · rw [if_pos hd]
          exact hd
        · rw [if_neg hd]
          simp
      · intro d'
        by_cases hd : d ∈ s
        · rw [if_pos hd]
          show d' ∈ s ↔ d' ∈ s ∨ d' = d
          constructor
          · exact Or.inl
          · rintro (h | h)
            · exact h
            · exact h ▸ hd
        · rw [if_neg hd]
          simp
    · obtain ⟨s2, hs2, hds2, hiff⟩ := ih
      rw [add_to_sets_cons_ne _ _ _ hr, sets_get_cons_ne _ _ hr,
        sets_get_cons_ne _ _ hr]
      exact ⟨s2, hs2, hds2, hiff⟩

lemma sets_get_add_other {α : Type} [DecidableEq α]
    (sets : List (Nat × List α)) (root : Nat) (d : α) (r' : Nat)
    (h : r' ≠ root) :
    sets_get (add_to_sets sets root d) r' = sets_get sets r' := by
  induction sets with
  | nil =>
    show sets_get [(root, [d])] r' = sets_get [] r'
    rw [sets_get_cons_ne _ _ (Ne.symm h)]
  | cons p rest ih =>
    obtain ⟨r, s⟩ := p
    by_cases hr : r = root
    · rw [add_to_sets_cons_eq _ _ _ hr]
      have hrr : r ≠ r' := by omega
      rw [sets_get_cons_ne _ _ hrr, sets_get_cons_ne _ _ hrr]
    · rw [add_to_sets_cons_ne _ _ _ hr]
      by_cases hrr : r = r'
      · rw [sets_get_cons_eq _ _ hrr, sets_get_cons_eq _ _ hrr]
      · rw [sets_get_cons_ne _ _ hrr, sets_get_cons_ne _ _ hrr]
        exact ih

lemma keys_add_to_sets {α : Type} [DecidableEq α]
    (sets : List (Nat × List α)) (root : Nat) (d : α) :
    (add_to_sets sets root d).map Prod.fst =
      if root ∈ sets.map Prod.fst then sets.map Prod.fst
      else sets.map Prod.fst ++ [root] := by
  induction sets with
  | nil => simp [add_to_sets]
  | cons p rest ih =>
    obtain ⟨r, s⟩ := p
    by_cases hr : r = root
    · subst hr
      rw [add_to_sets_cons_eq _ _ _ rfl]
      have hmem : r ∈ List.map Prod.fst ((r, s) :: rest) := by simp
      rw [if_pos hmem]
      simp
    · rw [add_to_sets_cons_ne _ _ _ hr, List.map_cons, ih]
      by_cases hmem : root ∈ rest.map Prod.fst
      · rw [if_pos hmem, if_pos (by simp [hmem])]
        rfl
      · rw [if_neg hmem, if_neg (by simp [hmem, Ne.symm hr])]
        rfl

lemma keys_add_nodup {α : Type} [DecidableEq α]
    (sets : List (Nat × List α)) (root : Nat) (d : α)
    (h : (sets.map Prod.fst).Nodup) :
    ((add_to_sets sets root d).map Prod.fst).Nodup := by
  rw [keys_add_to_sets]
  split
  · exact h
  case isFalse hmem => simp [List.nodup_append, h, hmem]

lemma values_add_nodup {α : Type} [DecidableEq α]
    (sets : List (Nat × List α)) (root : Nat) (d : α)
    (h : ∀ p ∈ sets, p.2.Nodup) :
    ∀ p ∈ add_to_sets sets root d, p.2.Nodup := by
  induction sets with
  | nil =>
    intro p hp
    have hp2 : p ∈ [(root, [d])] := hp
    rcases List.mem_singleton.mp hp2 with rfl
    exact List.nodup_singleton d
  | cons q rest ih =>
    obtain ⟨r, s⟩ := q
    intro p hp
    by_cases hr : r = root
    · rw [add_to_sets_cons_eq _ _ _ hr] at hp
      rcases List.mem_cons.mp hp with rfl | hmem
      · show (if d ∈ s then s else s ++ [d]).Nodup
        have hs : s.Nodup := h (r, s) (List.mem_cons_self _ _)
        by_cases hd : d ∈ s
        · rw [if_pos hd]
          exact hs
        · rw [if_neg hd]
          simp [List.nodup_append, hs, hd]
      · exact h p (List.mem_cons_of_mem _ hmem)
    · rw [add_to_sets_cons_ne _ _ _ hr] at hp
      rcases List.mem_cons.mp hp with rfl | hmem
      · exact h (r, s) (List.mem_cons_self _ _)
      · exact ih (fun q hq => h q (List.mem_cons_of_mem _ hq)) p hmem

lemma sets_get_mem {α : Type} (sets : List (Nat × List α))
    (hkeys : (sets.map Prod.fst).Nodup) (r : Nat) (s : List α) :
    (r, s) ∈ sets ↔ sets_get sets r = some s := by
  induction sets with
  | nil => simp [sets_get]
  | cons p rest ih =>
    obtain ⟨r1, s1⟩ := p
    rw [List.map_cons, List.nodup_cons] at hkeys
    by_cases hr : r1 = r
    · rw [sets_get_cons_eq _ _ hr]
      constructor
      · intro h
        rcases List.mem_cons.mp h with h | h
        · rw [((Prod.mk.injEq _ _ _ _).mp h).2]
        · have hmem2 : r ∈ List.map Prod.fst rest := List.mem_map_of_mem Prod.fst h
          rw [← hr] at hmem2
          exact absurd hmem2 hkeys.1
      · intro h
        have hss : s1 = s := Option.some.inj h
        rw [← hss, ← hr]
        exact List.mem_cons_self _ _
    · rw [sets_get_cons_ne _ _ hr, ← ih hkeys.2]
      constructor
      · intro h
        rcases List.mem_cons.mp h with h | h
        · exact absurd ((Prod.mk.injEq _ _ _ _).mp h).1.symm hr
        · exact h
      · exact fun h => List.mem_cons_of_mem _ h

lemma dataD_congr {α : Type} {nodes1 nodes2 : List (UFNode α)}
    (h : nodes1.map (·.data) = nodes2.map (·.data)) (i : Nat) :
    dataD nodes1 i = dataD nodes2 i := by
  unfold dataD
  rw [show (nodes1.get? i).map (·.data) = (nodes1.map (·.data)).get? i from
      (List.get?_map _ _ _).symm,
    show (nodes2.get? i).map (·.data) = (nodes2.map (·.data)).get? i from
      (List.get?_map _ _ _).symm,
    h]

/-- Specification of the get_sets loop: starting from any state whose
classes refine those of nodes0, it groups each processed index's data
under the root of its class in nodes0, with duplicate-free keys and
duplicate-free member sets. -/
lemma uf_get_sets_go_spec {α : Type} [DecidableEq α] (nodes0 : List (UFNode α))
    (hrooted0 : ∀ j, j < nodes0.length → ∃ t, ReachesN nodes0 j t) :
    ∀ (idxs : List Nat) (nodes : List (UFNode α)) (sets : List (Nat × List α)),
      nodes.length = nodes0.length →
      nodes.map (·.data) = nodes0.map (·.data) →
      (∀ j, j < nodes.length → parentD nodes j < nodes.length) →
      (∀ j t, ReachesN nodes0 j t → ReachesN nodes j t) →
      (∀ i ∈ idxs, i < nodes0.length) →
      (sets.map Prod.fst).Nodup →
      (∀ p ∈ sets, p.2.Nodup) →
      ((uf_get_sets_go idxs nodes sets).map Prod.fst).Nodup ∧
      (∀ p ∈ uf_get_sets_go idxs nodes sets, p.2.Nodup) ∧
      (∀ r' s, sets_get sets r' = some s →
        ∃ s2, sets_get (uf_get_sets_go idxs nodes sets) r' = some s2 ∧
          ∀ d ∈ s, d ∈ s2) ∧
      (∀ r' s2, sets_get (uf_get_sets_go idxs nodes sets) r' = some s2 →
        ∀ d ∈ s2, (∃ s, sets_get sets r' = some s ∧ d ∈ s) ∨
          ∃ i ∈ idxs, dataD nodes0 i = some d ∧ ReachesN nodes0 i r') ∧
      (∀ i ∈ idxs, ∃ r s2, ReachesN nodes0 i r ∧
        sets_get (uf_get_sets_go idxs nodes sets) r = some s2 ∧
        ∃ d, dataD nodes0 i = some d ∧ d ∈ s2) := by
  intro idxs
  induction idxs with
  | nil =>
    intro nodes sets _ _ _ _ _ hkeys hvals
    refine ⟨hkeys, hvals, ?_, ?_, ?_⟩
    · exact fun r' s h => ⟨s, h, fun d hd => hd⟩
    · intro r' s2 h d hd
      exact Or.inl ⟨s2, h, hd⟩
    · intro i hi
      simp at hi
  | cons i rest ih =>
    intro nodes sets hlen hdata hbn hpres hidx hkeys hvals
    have hi0 : i < nodes0.length := hidx i (List.mem_cons_self _ _)
    have hi : i < nodes.length := by rw [hlen]; exact hi0
    obtain ⟨t, ht0⟩ := hrooted0 i hi0
    have ht : ReachesN nodes i t := hpres i t ht0
    obtain ⟨k, hkle, hk, hkroot⟩ := reaches_short_witness hbn hi ht
    obtain ⟨hr, hlen1, hdata1, _, hb1, hpres1⟩ :=
      uf_find_aux_spec nodes.length nodes i t hbn hi ⟨k, hkle, hk, hkroot⟩
    obtain ⟨nd, hnd⟩ := get?_isSome_of_lt
      (uf_find_aux nodes.length nodes i).1 (i := i) (by rw [hlen1]; exact hi)
    have hdd : dataD nodes0 i = some nd.data := by
      rw [← dataD_congr (hdata1.trans hdata) i]
      unfold dataD
      rw [hnd]
      rfl
    have hdef : uf_get_sets_go (i :: rest) nodes sets =
        uf_get_sets_go rest (uf_find_aux nodes.length nodes i).1
          (add_to_sets sets (uf_find_aux nodes.length nodes i).2 nd.data) := by
      show (match (uf_find_aux nodes.length nodes i).1.get? i with
        | none => uf_get_sets_go rest (uf_find_aux nodes.length nodes i).1 sets
        | some nd => uf_get_sets_go rest (uf_find_aux nodes.length nodes i).1
            (add_to_sets sets (uf_find_aux nodes.length nodes i).2 nd.data)) = _
      rw [hnd]
    rw [hr] at hdef
    obtain ⟨s1, hs1, hds1, hs1iff⟩ := sets_get_add_same sets t nd.data
    obtain ⟨IH1, IH2, IH3, IH4, IH5⟩ :=
      ih (uf_find_aux nodes.length nodes i).1 (add_to_sets sets t nd.data)
        (hlen1.trans hlen) (hdata1.trans hdata)
        (by rw [hlen1]; exact hb1)
        (fun j t' h => hpres1 j t' (hpres j t' h))
        (fun j hj => hidx j (List.mem_cons_of_mem _ hj))
        (keys_add_nodup sets t nd.data hkeys)
        (values_add_nodup sets t nd.data hvals)
    rw [hdef]
    refine ⟨IH1, IH2, ?_, ?_, ?_⟩
    · intro r' s hsr
      by_cases hrt : r' = t
      · subst hrt
        obtain ⟨s2, hs2, hsub2⟩ := IH3 r' s1 hs1
        refine ⟨s2, hs2, fun d hd => hsub2 d ?_⟩
        rw [hs1iff d]
        left
        rw [hsr]
        exact hd
      · obtain ⟨s2, hs2, hsub2⟩ :=
          IH3 r' s (by rw [sets_get_add_other sets t nd.data r' hrt]; exact hsr)
        exact ⟨s2, hs2, hsub2⟩
    · intro r' s2 hs2 d hd
      rcases IH4 r' s2 hs2 d hd with ⟨s', hs', hds'⟩ | ⟨i', hi', hdd', hre'⟩
      · by_cases hrt : r' = t
        · subst hrt
          have hseq : s' = s1 := Option.some.inj (hs' ▸ hs1 ▸ rfl)
          rw [hseq] at hds'
          rcases (hs1iff d).mp hds' with hold | hnew
          · cases hget : sets_get sets r' with
            | none =>
              rw [hget] at hold
              simp at hold
            | some sOld =>
              rw [hget] at hold
              exact Or.inl ⟨sOld, rfl, hold⟩
          · right
            exact ⟨i, List.mem_cons_self _ _, by rw [hnew]; exact hdd, ht0⟩
        · rw [sets_get_add_other sets t nd.data r' hrt] at hs'
          exact Or.inl ⟨s', hs', hds'⟩
      · exact Or.inr ⟨i', List.mem_cons_of_mem _ hi', hdd', hre'⟩
    · intro i' hi'
      rcases List.mem_cons.mp hi' with rfl | hmem
      · obtain ⟨s2, hs2, hsub2⟩ := IH3 t s1 hs1
        exact ⟨t, s2, ht0, hs2, nd.data, hdd, hsub2 nd.data hds1⟩
      · exact IH5 i' hmem

/-- Nodes created by the DisjointSet constructor from position start:
each datum becomes its own root with rank 1. -/
def uf_init_nodes {α : Type} : Nat → List α → List (UFNode α)
  | _, [] => []
  | i, d :: rest => ⟨i, 1, d⟩ :: uf_init_nodes (i + 1) rest

/-- The DisjointSet class: the list of nodes (the reference dictionary is
derived from the immutable node data, which every operation preserves). -/
structure DisjointSet (α : Type) [DecidableEq α] where
  nodes : List (UFNode α)

/-- Translation of the DisjointSet constructor. -/
def DisjointSet.init {α : Type} [DecidableEq α] (data : List α) :
    DisjointSet α :=
  ⟨uf_init_nodes 0 data⟩

/-- The index the Python reference dictionary {d: i for i, d in
enumerate(data)} stores for d: the last enumeration index carrying d. -/
def last_index_from {α : Type} [DecidableEq α] (start : Nat) (data : List α)
    (d : α) : Option Nat :=
  match data with
  | [] => none
  | x :: rest =>
    match last_index_from (start + 1) rest d with
    | some j => some j
    | none => if x = d then some start else none

/-- Translation of self.reference[data] (none is the Python KeyError). -/
def DisjointSet.reference {α : Type} [DecidableEq α] (ds : DisjointSet α)
    (d : α) : Option Nat :=
  last_index_from 0 (ds.nodes.map (·.data)) d

/-- Translation of DisjointSet.find (reference lookup then _find). -/
def DisjointSet.find {α : Type} [DecidableEq α] (ds : DisjointSet α) (d : α) :
    Option (DisjointSet α × Nat) :=
  match ds.reference d with
  | none => none
  | some index =>
    let r := uf_find_aux ds.nodes.length ds.nodes index
    some (⟨r.1⟩, r.2)

/-- Translation of DisjointSet.union (two reference lookups then
_union). -/
def DisjointSet.union {α : Type} [DecidableEq α] (ds : DisjointSet α)
    (d1 d2 : α) : Option (DisjointSet α) :=
  match ds.reference d1, ds.reference d2 with
  | some i1, some i2 => some ⟨uf_union ds.nodes i1 i2⟩
  | _, _ => none

/-- Translation of DisjointSet.get_sets. -/
def DisjointSet.get_sets {α : Type} [DecidableEq α] (ds : DisjointSet α) :
    List (Nat × List α) :=
  uf_get_sets ds.nodes

/-- Well-formed disjoint-set state over a data list: the node data is
exactly the list, parents are in range and every index reaches a root. -/
def UFGood {α : Type} [DecidableEq α] (ds : DisjointSet α) (data : List α) :
    Prop :=
  ds.nodes.map (·.data) = data ∧
  (∀ j, j < ds.nodes.length → parentD ds.nodes j < ds.nodes.length) ∧
  (∀ j, j < ds.nodes.length → ∃ t, ReachesN ds.nodes j t)

/-- Two data lie in the same class of the disjoint set. -/
def SameClass {α : Type} [DecidableEq α] (ds : DisjointSet α) (d1 d2 : α) :
    Prop :=
  ∃ i1 i2, ds.reference d1 = some i1 ∧ ds.reference d2 = some i2 ∧
    SameRootN ds.nodes i1 i2

lemma uf_init_nodes_length {α : Type} (data : List α) :
    ∀ s, (uf_init_nodes s data).length = data.length := by
  induction data with
  | nil => intro s; rfl
  | cons d rest ih =>
    intro s
    show (uf_init_nodes (s + 1) rest).length + 1 = rest.length + 1
    rw [ih]

lemma uf_init_nodes_data {α : Type} (data : List α) :
    ∀ s, (uf_init_nodes s data).map (·.data) = data := by
  induction data with
  | nil => intro s; rfl
  | cons d rest ih =>
    intro s
    show d :: (uf_init_nodes (s + 1) rest).map (·.data) = d :: rest
    rw [ih]

lemma uf_init_nodes_get {α : Type} (data : List α) :
    ∀ s j (hj : j < data.length),
      (uf_init_nodes s data).get? j = some ⟨s + j, 1, data.get ⟨j, hj⟩⟩ := by
  induction data with
  | nil => intro s j hj; exact absurd hj (by simp)
  | cons d rest ih =>
    intro s j hj
    cases j with
    | zero => rfl
    | succ j =>
      show (uf_init_nodes (s + 1) rest).get? j = _
      rw [ih (s + 1) j (by simpa using hj)]
      have harith : s + 1 + j = s + (j + 1) := by omega
      rw [harith]
      rfl

lemma init_good {α : Type} [DecidableEq α] (data : List α) :
    UFGood (DisjointSet.init data) data := by
  have hlen : (uf_init_nodes 0 data).length = data.length :=
    uf_init_nodes_length data 0
  have hpar : ∀ j, j < data.length → parentD (uf_init_nodes 0 data) j = j := by
    intro j hj
    unfold parentD
    rw [uf_init_nodes_get data 0 j hj]
    simp
  unfold UFGood DisjointSet.init
  refine ⟨uf_init_nodes_data data 0, ?_, ?_⟩
  · intro j hj
    rw [hlen] at hj ⊢
    rw [hpar j hj]
    exact hj
  · intro j hj
    rw [hlen] at hj
    exact ⟨j, reaches_of_root (hpar j hj)⟩

lemma last_index_from_cons {α : Type} [DecidableEq α] (x : α) (rest : List α)
    (d : α) (start : Nat) :
    last_index_from start (x :: rest) d =
      match last_index_from (start + 1) rest d with
      | some j => some j
      | none => if x = d then some start else none := rfl

lemma last_index_some_mem {α : Type} [DecidableEq α] (data : List α) (d : α) :
    ∀ start j, last_index_from start data d = some j → d ∈ data := by
  induction data with
  | nil =>
    intro start j h
    exact Option.noConfusion h
  | cons x rest ih =>
    intro start j h
    rw [last_index_from_cons] at h
    cases hli : last_index_from (start + 1) rest d with
    | some j2 =>
      exact List.mem_cons_of_mem _ (ih _ _ hli)
    | none =>
      rw [hli] at h
      by_cases hxd : x = d
      · exact List.mem_cons.mpr (Or.inl hxd.symm)
      · rw [if_neg hxd] at h
        exact Option.noConfusion h

lemma last_index_mem {α : Type} [DecidableEq α] (data : List α) (d : α) :
    ∀ start, d ∈ data → ∃ k, k < data.length ∧
      last_index_from start data d = some (start + k) ∧
      data.get? k = some d := by
  induction data with
  | nil =>
    intro start h
    simp at h
  | cons x rest ih =>
    intro start hmem
    by_cases hrest : d ∈ rest
    · obtain ⟨k, hk, hli, hget⟩ := ih (start + 1) hrest
      refine ⟨k + 1, by simp only [List.length_cons]; omega, ?_, hget⟩
      rw [last_index_from_cons, hli]
      show some (start + 1 + k) = some (start + (k + 1))
      congr 1
      omega
    · have hxd : x = d := by
        rcases List.mem_cons.mp hmem with h | h
        · exact h.symm
        · exact absurd h hrest
      have hnone : last_index_from (start + 1) rest d = none := by
        cases hli : last_index_from (start + 1) rest d with
        | none => rfl
        | some j => exact absurd (last_index_some_mem rest d _ _ hli) hrest
      refine ⟨0, by simp, ?_, by rw [hxd]; rfl⟩
      rw [last_index_from_cons, hnone]
      show (if x = d then some start else none) = some (start + 0)
      rw [if_pos hxd]
      simp

/-- reference finds every datum of the node list, at an index holding
that datum. -/
lemma reference_spec {α : Type} [DecidableEq α] (ds : DisjointSet α)
    (data : List α) (hdata : ds.nodes.map (·.data) = data) (d : α)
    (hd : d ∈ data) :
    ∃ i, ds.reference d = some i ∧ i < ds.nodes.length ∧
      dataD ds.nodes i = some d := by
  obtain ⟨k, hk, hli, hget⟩ :=
    last_index_mem (ds.nodes.map (·.data)) d 0 (by rw [hdata]; exact hd)
  refine ⟨k, ?_, ?_, ?_⟩
  · show last_index_from 0 (ds.nodes.map (·.data)) d = some k
    rw [hli]
    simp
  · rw [List.length_map] at hk
    exact hk
  · unfold dataD
    rw [show (ds.nodes.get? k).map (·.data) =
        (ds.nodes.map (·.data)).get? k from (List.get?_map _ _ _).symm]
    exact hget

lemma reference_congr {α : Type} [DecidableEq α] {ds1 ds2 : DisjointSet α}
    (h : ds1.nodes.map (·.data) = ds2.nodes.map (·.data)) (d : α) :
    ds1.reference d = ds2.reference d := by
  unfold DisjointSet.reference
  rw [h]

/-- The datum at the index reference returns is unique: two references
resolving to the same index denote the same datum. -/
lemma reference_inj {α : Type} [DecidableEq α] (ds : DisjointSet α)
    {d1 d2 : α} {i : Nat}
    (h1 : ds.reference d1 = some i) (h2 : ds.reference d2 = some i)
    (hd1 : dataD ds.nodes i = some d1) (hd2 : dataD ds.nodes i = some d2) :
    d1 = d2 := by
  rw [hd1] at hd2
  exact Option.some.inj hd2

lemma same_class_refl {α : Type} [DecidableEq α] {ds : DisjointSet α}
    {data : List α} (hg : UFGood ds data) {d : α} (hd : d ∈ data) :
    SameClass ds d d := by
  obtain ⟨i, hi, hilt, _⟩ := reference_spec ds data hg.1 d hd
  obtain ⟨t, ht⟩ := hg.2.2 i hilt
  exact ⟨i, i, hi, hi, t, ht, ht⟩

lemma same_class_symm {α : Type} [DecidableEq α] {ds : DisjointSet α}
    {d1 d2 : α} (h : SameClass ds d1 d2) : SameClass ds d2 d1 := by
  obtain ⟨i1, i2, h1, h2, r, hr1, hr2⟩ := h
  exact ⟨i2, i1, h2, h1, r, hr2, hr1⟩

lemma same_class_trans {α : Type} [DecidableEq α] {ds : DisjointSet α}
    {d1 d2 d3 : α} (h12 : SameClass ds d1 d2) (h23 : SameClass ds d2 d3) :
    SameClass ds d1 d3 := by
  obtain ⟨i1, i2, hr1, hr2, r, hra, hrb⟩ := h12
  obtain ⟨i2x, i3, hr2x, hr3, r2, hra2, hrb2⟩ := h23
  have hi2 : i2x = i2 := Option.some.inj (hr2x ▸ hr2 ▸ rfl)
  subst hi2
  have hrr : r = r2 := reaches_unique hrb hra2
  exact ⟨i1, i3, hr1, hr3, r, hra, hrr ▸ hrb2⟩

/-- Data-level specification of DisjointSet.union. -/
lemma ds_union_spec {α : Type} [DecidableEq α] (ds : DisjointSet α)
    (data : List α) (hg : UFGood ds data) (d1 d2 : α)
    (h1 : d1 ∈ data) (h2 : d2 ∈ data) :
    ∃ ds1, ds.union d1 d2 = some ds1 ∧ UFGood ds1 data ∧
      (∀ a b, SameClass ds a b → SameClass ds1 a b) ∧
      SameClass ds1 d1 d2 := by
  obtain ⟨i1, hi1, hi1lt, _⟩ := reference_spec ds data hg.1 d1 h1
  obtain ⟨i2, hi2, hi2lt, _⟩ := reference_spec ds data hg.1 d2 h2
  obtain ⟨hulen, hudata, hub, hurooted, humono, hupair⟩ :=
    uf_union_spec ds.nodes i1 i2 hg.2.1 hg.2.2 hi1lt hi2lt
  refine ⟨⟨uf_union ds.nodes i1 i2⟩, ?_, ?_, ?_, ?_⟩
  · show (match ds.reference d1, ds.reference d2 with
      | some i1, some i2 => some (⟨uf_union ds.nodes i1 i2⟩ : DisjointSet α)
      | _, _ => none) = _
    rw [hi1, hi2]
  · show UFGood ⟨uf_union ds.nodes i1 i2⟩ data
    refine ⟨?_, ?_, ?_⟩
    · show (uf_union ds.nodes i1 i2).map (·.data) = data
      rw [hudata, hg.1]
    · show ∀ j, j < (uf_union ds.nodes i1 i2).length →
        parentD (uf_union ds.nodes i1 i2) j < (uf_union ds.nodes i1 i2).length
      rw [hulen]
      exact hub
    · show ∀ j, j < (uf_union ds.nodes i1 i2).length →
        ∃ t, ReachesN (uf_union ds.nodes i1 i2) j t
      rw [hulen]
      exact hurooted
  · intro a b hab
    obtain ⟨j1, j2, hj1, hj2, hsame⟩ := hab
    have hrc : ∀ e : α, (⟨uf_union ds.nodes i1 i2⟩ : DisjointSet α).reference e =
        ds.reference e :=
      fun e => reference_congr (by show (uf_union ds.nodes i1 i2).map (·.data) = _
                                   rw [hudata]) e
    exact ⟨j1, j2, (hrc a).trans hj1, (hrc b).trans hj2, humono j1 j2 hsame⟩
  · have hrc : ∀ e : α, (⟨uf_union ds.nodes i1 i2⟩ : DisjointSet α).reference e =
        ds.reference e :=
      fun e => reference_congr (by show (uf_union ds.nodes i1 i2).map (·.data) = _
                                   rw [hudata]) e
    exact ⟨i1, i2, (hrc d1).trans hi1, (hrc d2).trans hi2, hupair⟩

/-- Data-level specification of DisjointSet.find: it returns exactly the
root of the class of the datum and changes no class. -/
lemma ds_find_spec {α : Type} [DecidableEq α] (ds : DisjointSet α)
    (data : List α) (hg : UFGood ds data) (d : α) (hd : d ∈ data) :
    ∃ ds1 r, ds.find d = some (ds1, r) ∧ UFGood ds1 data ∧
      (∀ j t, ReachesN ds.nodes j t → ReachesN ds1.nodes j t) ∧
      ∃ i, ds.reference d = some i ∧ ReachesN ds.nodes i r := by
  obtain ⟨i, hi, hilt, _⟩ := reference_spec ds data hg.1 d hd
  obtain ⟨t, ht⟩ := hg.2.2 i hilt
  obtain ⟨k, hkle, hk, hkroot⟩ := reaches_short_witness hg.2.1 hilt ht
  obtain ⟨hr, hlen1, hdata1, _, hb1, hpres1⟩ :=
    uf_find_aux_spec ds.nodes.length ds.nodes i t hg.2.1 hilt
      ⟨k, hkle, hk, hkroot⟩
  refine ⟨⟨(uf_find_aux ds.nodes.length ds.nodes i).1⟩,
    (uf_find_aux ds.nodes.length ds.nodes i).2, ?_, ?_, hpres1,
    i, hi, ?_⟩
  · show (match ds.reference d with
      | none => none
      | some index =>
          some ((⟨(uf_find_aux ds.nodes.length ds.nodes index).1⟩ : DisjointSet α),
            (uf_find_aux ds.nodes.length ds.nodes index).2)) = _
    rw [hi]
  · show UFGood ⟨(uf_find_aux ds.nodes.length ds.nodes i).1⟩ data
    refine ⟨?_, ?_, ?_⟩
    · show (uf_find_aux ds.nodes.length ds.nodes i).1.map (·.data) = data
      rw [hdata1, hg.1]
    · show ∀ j, j < (uf_find_aux ds.nodes.length ds.nodes i).1.length → _
      rw [hlen1]
      exact hb1
    · show ∀ j, j < (uf_find_aux ds.nodes.length ds.nodes i).1.length →
        ∃ tx, ReachesN (uf_find_aux ds.nodes.length ds.nodes i).1 j tx
      rw [hlen1]
      intro j hj
      obtain ⟨tx, htx⟩ := hg.2.2 j hj
      exact ⟨tx, hpres1 j tx htx⟩
  · rw [hr]
    exact ht

/- ---------------------------------------------------------------------
   Section 10: the atom partitioner
   (src/theorydd/formula.py, get_atom_partitioning)
--------------------------------------------------------------------- -/

/-- Dictionary lookup atoms_repr_vars[atom] (none is the KeyError for an
atom without representative variable). -/
def repr_get (reprs : List (Atom × Var)) (a : Atom) : Option Var :=
  (reprs.find? (fun p => p.1 == a)).map Prod.snd

/-- Inner loop of the variable-merging pass: union var_1 with every
variable after it in the atom's variable list. -/
def union_var_list (v : Var) : List Var → DisjointSet Var →
    Option (DisjointSet Var)
  | [], dsv => some dsv
  | w :: ws, dsv =>
    match dsv.union v w with
    | none => none
    | some dsv1 => union_var_list v ws dsv1

/-- The double loop over the pairs of variables of one atom. -/
def union_var_pairs : List Var → DisjointSet Var → Option (DisjointSet Var)
  | [], dsv => some dsv
  | v :: vs, dsv =>
    match union_var_list v vs dsv with
    | none => none
    | some dsv1 => union_var_pairs vs dsv1

/-- First loop of get_atom_partitioning: skip variable-free atoms,
collect the theory atoms and their representative variables, and union
all variable pairs co-occurring in one atom. -/
def partition_loop1 : List Atom → DisjointSet Var → List Atom →
    List (Atom × Var) →
    Option (DisjointSet Var × List Atom × List (Atom × Var))
  | [], dsv, theory_atoms, reprs => some (dsv, theory_atoms, reprs)
  | atom :: rest, dsv, theory_atoms, reprs =>
    match atom.free_variables with
    | [] => partition_loop1 rest dsv theory_atoms reprs
    | v :: vs =>
      match union_var_pairs (v :: vs) dsv with
      | none => none
      | some dsv1 =>
        partition_loop1 rest dsv1 (theory_atoms ++ [atom]) (reprs ++ [(atom, v)])

/-- Inner loop of the atom-merging pass: for the fixed atom_1 with its
variable root atom_1_repr, walk the remaining slice of atoms, look each
atom's representative variable up (KeyError for an atom without one),
find its root, and union the two atoms when the roots agree. -/
def partition_loop2_inner (reprs : List (Atom × Var)) (atom_1 : Atom)
    (atom_1_repr : Nat) :
    List Atom → DisjointSet Var → DisjointSet Atom →
    Option (DisjointSet Var × DisjointSet Atom)
  | [], dsv, dsa => some (dsv, dsa)
  | atom_2 :: rest, dsv, dsa =>
    match repr_get reprs atom_2 with
    | none => none
    | some rv2 =>
      match dsv.find rv2 with
      | none => none
      | some (dsv1, atom_2_repr) =>
        if atom_1_repr = atom_2_repr then
          match dsa.union atom_1 atom_2 with
          | none => none
          | some dsa1 => partition_loop2_inner reprs atom_1 atom_1_repr rest dsv1 dsa1
        else partition_loop2_inner reprs atom_1 atom_1_repr rest dsv1 dsa

/-- Outer loop of the atom-merging pass, enumerating theory_atoms while
slicing the full atom list from index + 1. -/
def partition_loop2 (reprs : List (Atom × Var)) (atoms : List Atom) :
    Nat → List Atom → DisjointSet Var → DisjointSet Atom →
    Option (DisjointSet Var × DisjointSet Atom)
  | _, [], dsv, dsa => some (dsv, dsa)
  | index, atom_1 :: tas, dsv, dsa =>
    match repr_get reprs atom_1 with
    | none => none
    | some rv1 =>
      match dsv.find rv1 with
      | none => none
      | some (dsv1, atom_1_repr) =>
        match partition_loop2_inner reprs atom_1 atom_1_repr
            (atoms.drop (index + 1)) dsv1 dsa with
        | none => none
        | some (dsv2, dsa1) =>
          partition_loop2 reprs atoms (index + 1) tas dsv2 dsa1

/-- Translation of formula.get_atom_partitioning.  pysmt's
get_free_variables always returns a (possibly empty) frozenset and never
None, so the source's `if all_vars is None` branch (which would return a
single set holding all atoms) can never be taken; the Option models this
faithfully. -/
def get_atom_partitioning (phi : Fml) : Option (List (List Atom)) :=
  let atoms := get_atoms phi
  let all_vars : Option (List Var) := some (get_free_variables phi)
  match all_vars with
  | none => some [atoms]
  | some avs =>
    let dsv0 : DisjointSet Var := DisjointSet.init avs
    match partition_loop1 atoms dsv0 [] [] with
    | none => none
    | some (dsv1, theory_atoms, reprs) =>
      let dsa0 : DisjointSet Atom := DisjointSet.init theory_atoms
      match partition_loop2 reprs atoms 0 theory_atoms dsv1 dsa0 with
      | none => none
      | some (_, dsa1) =>
        some ((dsa1.get_sets.map Prod.snd) ++
          (atoms.filter (fun a => decide (a ∉ theory_atoms))).map (fun a => [a]))

/-- C8 (failing input).  On a formula with zero free variables holding
two distinct variable-free atoms (for example (0 < 1) ∧ (1 < 2)),
get_atom_partitioning returns one singleton set per atom instead of the
single set containing all atoms that the claim (and the source's own
dead `if all_vars is None` branch, whose comment reads "no free variables
in the formula") prescribes: pysmt's get_free_variables returns a
frozenset, never None, so the guard cannot fire.  The second half of the
claim (each purely Boolean atom in its own singleton) is also exhibited:
a Boolean atom reports itself as its only free variable and lands in a
singleton here too. -/
theorem tdd_c8_zero_free_variables_code_bug :
    get_free_variables
      (Fml.conj [Fml.atom (Atom.mk 0 []), Fml.atom (Atom.mk 1 [])]) = [] ∧
    get_atom_partitioning
      (Fml.conj [Fml.atom (Atom.mk 0 []), Fml.atom (Atom.mk 1 [])]) =
      some [[Atom.mk 0 []], [Atom.mk 1 []]] ∧
    get_atom_partitioning
      (Fml.conj [Fml.atom (Atom.mk 0 []), Fml.atom (Atom.mk 1 [])]) ≠
      some [[Atom.mk 0 [], Atom.mk 1 []]] ∧
    get_atom_partitioning
      (Fml.conj [Fml.atom (Atom.mk 10 [10]), Fml.atom (Atom.mk 11 [11])]) =
      some [[Atom.mk 10 [10]], [Atom.mk 11 [11]]] := by
  refine ⟨by decide, by decide, by decide, by decide⟩

lemma union_var_list_spec (avs : List Var) (v : Var) :
    ∀ (ws : List Var) (dsv : DisjointSet Var),
      UFGood dsv avs → v ∈ avs → (∀ w ∈ ws, w ∈ avs) →
      ∃ dsv1, union_var_list v ws dsv = some dsv1 ∧ UFGood dsv1 avs ∧
        (∀ a b, SameClass dsv a b → SameClass dsv1 a b) ∧
        (∀ w ∈ ws, SameClass dsv1 v w) := by
  intro ws
  induction ws with
  | nil =>
    intro dsv hg _ _
    exact ⟨dsv, rfl, hg, fun a b h => h, fun w hw => absurd hw (by simp)⟩
  | cons w ws ih =>
    intro dsv hg hv hws
    obtain ⟨dsva, hdsva, hga, hmona, hpaira⟩ :=
      ds_union_spec dsv avs hg v w hv (hws w (List.mem_cons_self _ _))
    obtain ⟨dsv1, hdsv1, hg1, hmono1, hpairs1⟩ :=
      ih dsva hga hv (fun x hx => hws x (List.mem_cons_of_mem _ hx))
    refine ⟨dsv1, ?_, hg1, fun a b h => hmono1 a b (hmona a b h), ?_⟩
    · show (match dsv.union v w with
        | none => none
        | some dsva => union_var_list v ws dsva) = some dsv1
      rw [hdsva]
      exact hdsv1
    · intro x hx
      rcases List.mem_cons.mp hx with rfl | hx
      · exact hmono1 v x hpaira
      · exact hpairs1 x hx

lemma union_var_pairs_spec (avs : List Var) :
    ∀ (vs : List Var) (dsv : DisjointSet Var),
      UFGood dsv avs → (∀ x ∈ vs, x ∈ avs) →
      ∃ dsv1, union_var_pairs vs dsv = some dsv1 ∧ UFGood dsv1 avs ∧
        (∀ a b, SameClass dsv a b → SameClass dsv1 a b) ∧
        (∀ x ∈ vs, ∀ y ∈ vs, SameClass dsv1 x y) := by
  intro vs
  induction vs with
  | nil =>
    intro dsv hg _
    exact ⟨dsv, rfl, hg, fun a b h => h, fun x hx => absurd hx (by simp)⟩
  | cons v vs ih =>
    intro dsv hg hmem
    obtain ⟨dsva, hdsva, hga, hmona, hpaira⟩ :=
      union_var_list_spec avs v vs dsv hg (hmem v (List.mem_cons_self _ _))
        (fun x hx => hmem x (List.mem_cons_of_mem _ hx))
    obtain ⟨dsv1, hdsv1, hg1, hmono1, hpairs1⟩ :=
      ih dsva hga (fun x hx => hmem x (List.mem_cons_of_mem _ hx))
    refine ⟨dsv1, ?_, hg1, fun a b h => hmono1 a b (hmona a b h), ?_⟩
    · show (match union_var_list v vs dsv with
        | none => none
        | some dsva => union_var_pairs vs dsva) = some dsv1
      rw [hdsva]
      exact hdsv1
    · intro x hx y hy
      rcases List.mem_cons.mp hx with heq1 | hx2
      · rcases List.mem_cons.mp hy with heq2 | hy2
        · rw [heq1, heq2]
          exact same_class_refl hg1 (hmem v (List.mem_cons_self _ _))
        · rw [heq1]
          exact hmono1 v y (hpaira y hy2)
      · rcases List.mem_cons.mp hy with heq2 | hy2
        · rw [heq2]
          exact same_class_symm (hmono1 v x (hpaira x hx2))
        · exact hpairs1 x hx2 y hy2

lemma partition_loop1_spec (avs : List Var) :
    ∀ (l : List Atom) (dsv : DisjointSet Var) (ta0 : List Atom)
      (reprs0 : List (Atom × Var)),
      UFGood dsv avs →
      (∀ a ∈ l, ∀ v ∈ a.free_variables, v ∈ avs) →
      ∃ dsv1 radd,
        partition_loop1 l dsv ta0 reprs0 =
          some (dsv1,
            ta0 ++ l.filter (fun a => decide (a.free_variables ≠ [])),
            reprs0 ++ radd) ∧
        UFGood dsv1 avs ∧
        (∀ a b, SameClass dsv a b → SameClass dsv1 a b) ∧
        radd.map Prod.fst = l.filter (fun a => decide (a.free_variables ≠ [])) ∧
        (∀ p ∈ radd, p.2 ∈ p.1.free_variables) ∧
        (∀ a ∈ l, ∀ v ∈ a.free_variables, ∀ w ∈ a.free_variables,
          SameClass dsv1 v w) := by
  intro l
  induction l with
  | nil =>
    intro dsv ta0 reprs0 hg _
    refine ⟨dsv, [], by simp [partition_loop1], hg, fun a b h => h, rfl,
      fun p hp => absurd hp (by simp), fun a ha => absurd ha (by simp)⟩
  | cons atom rest ih =>
    intro dsv ta0 reprs0 hg hvars
    cases hfv : atom.free_variables with
    | nil =>
      obtain ⟨dsv1, radd, hres, hg1, hmono1, hkeys1, hval1, hcls1⟩ :=
        ih dsv ta0 reprs0 hg (fun a ha => hvars a (List.mem_cons_of_mem _ ha))
      have hfilter : (atom :: rest).filter
          (fun a => decide (a.free_variables ≠ [])) =
          rest.filter (fun a => decide (a.free_variables ≠ [])) := by
        rw [List.filter_cons]
        simp [hfv]
      refine ⟨dsv1, radd, ?_, hg1, hmono1, by rw [hkeys1, hfilter], hval1, ?_⟩
      · show (match atom.free_variables with
          | [] => partition_loop1 rest dsv ta0 reprs0
          | v :: vs =>
            match union_var_pairs (v :: vs) dsv with
            | none => none
            | some dsv1 =>
              partition_loop1 rest dsv1 (ta0 ++ [atom]) (reprs0 ++ [(atom, v)])) =
          _
        rw [hfv, hfilter]
        exact hres
      · intro a ha v hv w hw
        rcases List.mem_cons.mp ha with rfl | ha2
        · rw [hfv] at hv
          exact absurd hv (by simp)
        · exact hcls1 a ha2 v hv w hw
    | cons v vs =>
      have hmemv : ∀ x ∈ v :: vs, x ∈ avs := by
        intro x hx
        exact hvars atom (List.mem_cons_self _ _) x (hfv ▸ hx)
      obtain ⟨dsva, hdsva, hga, hmona, hpaira⟩ :=
        union_var_pairs_spec avs (v :: vs) dsv hg hmemv
      obtain ⟨dsv1, radd, hres, hg1, hmono1, hkeys1, hval1, hcls1⟩ :=
        ih dsva (ta0 ++ [atom]) (reprs0 ++ [(atom, v)]) hga
          (fun a ha => hvars a (List.mem_cons_of_mem _ ha))
      have hfilter : (atom :: rest).filter
          (fun a => decide (a.free_variables ≠ [])) =
          atom :: rest.filter (fun a => decide (a.free_variables ≠ [])) := by
        rw [List.filter_cons]
        simp [hfv]
      refine ⟨dsv1, (atom, v) :: radd, ?_, hg1,
        fun a b h => hmono1 a b (hmona a b h), ?_, ?_, ?_⟩
      · show (match atom.free_variables with
          | [] => partition_loop1 rest dsv ta0 reprs0
          | v :: vs =>
            match union_var_pairs (v :: vs) dsv with
            | none => none
            | some dsvx =>
              partition_loop1 rest dsvx (ta0 ++ [atom]) (reprs0 ++ [(atom, v)])) =
          _
        rw [hfv]
        show (match union_var_pairs (v :: vs) dsv with
          | none => none
          | some dsvx =>
            partition_loop1 rest dsvx (ta0 ++ [atom]) (reprs0 ++ [(atom, v)])) = _
        rw [hdsva]
        show partition_loop1 rest dsva (ta0 ++ [atom]) (reprs0 ++ [(atom, v)]) = _
        rw [hres, hfilter]
        simp
      · rw [hfilter, List.map_cons, hkeys1]
      · intro p hp
        rcases List.mem_cons.mp hp with rfl | hp2
        · show v ∈ atom.free_variables
          rw [hfv]
          exact List.mem_cons_self _ _
        · exact hval1 p hp2
      · intro a ha x hx w hw
        rcases List.mem_cons.mp ha with rfl | ha2
        · rw [hfv] at hx hw
          exact hmono1 x w (hpaira x hx w hw)
        · exact hcls1 a ha2 x hx w hw

lemma mem_foldr_append {l : List Atom} {a : Atom} (ha : a ∈ l) :
    ∀ v ∈ a.free_variables,
      v ∈ (l.map Atom.free_variables).foldr (· ++ ·) [] := by
  induction l with
  | nil => exact absurd ha (by simp)
  | cons b rest ih =>
    intro v hv
    show v ∈ b.free_variables ++ (rest.map Atom.free_variables).foldr (· ++ ·) []
    rcases List.mem_cons.mp ha with heq | hmem
    · exact List.mem_append.mpr (Or.inl (heq ▸ hv))
    · exact List.mem_append.mpr (Or.inr (ih hmem v hv))

/-- Every free variable of an atom of phi is a free variable of phi. -/
lemma mem_free_vars_all (phi : Fml) :
    ∀ a ∈ get_atoms phi, ∀ v ∈ a.free_variables,
      v ∈ get_free_variables phi := by
  intro a ha v hv
  exact (dedup_keep_first_mem _ _).mpr
    (mem_foldr_append ((get_atoms_mem phi a).mp ha) v hv)

lemma repr_get_of_keys (reprs : List (Atom × Var)) (a : Atom)
    (ha : a ∈ reprs.map Prod.fst) :
    ∃ v, repr_get reprs a = some v ∧ (a, v) ∈ reprs := by
  have hsome : (reprs.find? (fun p => p.1 == a)).isSome := by
    rw [List.find?_isSome]
    obtain ⟨p, hp, hpa⟩ := List.mem_map.mp ha
    exact ⟨p, hp, by simp [hpa]⟩
  obtain ⟨q, hq⟩ := Option.isSome_iff_exists.mp hsome
  have hqa : q.1 = a := by
    have := List.find?_some hq
    simpa using this
  refine ⟨q.2, ?_, ?_⟩
  · unfold repr_get
    rw [hq]
    rfl
  · have hmem : q ∈ reprs := List.mem_of_find?_eq_some hq
    rw [show (a, q.2) = q from by rw [← hqa]]
    exact hmem

lemma nodup_get?_inj {α : Type} {l : List α} (h : l.Nodup) {p q : Nat} {x : α}
    (hp : l.get? p = some x) (hq : l.get? q = some x) : p = q := by
  obtain ⟨hp1, hp2⟩ := List.get?_eq_some.mp hp
  obtain ⟨hq1, hq2⟩ := List.get?_eq_some.mp hq
  have heq := (h.get_inj_iff).mp (hp2.trans hq2.symm)
  exact congrArg Fin.val heq

lemma dataD_eq {α : Type} (nodes : List (UFNode α)) (i : Nat) :
    dataD nodes i = (nodes.map (·.data)).get? i :=
  (List.get?_map _ _ _).symm

lemma drop_cons_get? {α : Type} {l : List α} {i : Nat} {a : α} {rest : List α}
    (h : l.drop i = a :: rest) : l.get? i = some a := by
  have := List.get?_drop l i 0
  rw [h] at this
  rw [Nat.add_zero] at this
  exact this.symm

lemma drop_cons_drop {α : Type} {l : List α} {i : Nat} {a : α} {rest : List α}
    (h : l.drop i = a :: rest) : l.drop (i + 1) = rest := by
  have h1 : (l.drop i).drop 1 = l.drop (i + 1) := List.drop_drop 1 i l
  rw [h] at h1
  exact h1.symm

lemma get?_mem_drop {α : Type} {l : List α} {i q : Nat} {a : α}
    (hq : i + 1 ≤ q) (h : l.get? q = some a) : a ∈ l.drop (i + 1) := by
  have h1 : (l.drop (i + 1)).get? (q - (i + 1)) = l.get? ((i + 1) + (q - (i + 1))) :=
    List.get?_drop l (i + 1) (q - (i + 1))
  rw [show (i + 1) + (q - (i + 1)) = q from by omega, h] at h1
  exact List.get?_mem h1

/-- A find on a state whose classes extend those of a base state V0
returns exactly the V0-root of the datum's V0-class, and keeps
extending V0. -/
lemma find_root_of_ext {avs : List Var} {V0 dsv : DisjointSet Var}
    (hgV0 : UFGood V0 avs) (hg : UFGood dsv avs)
    (hext : ∀ j t, ReachesN V0.nodes j t → ReachesN dsv.nodes j t)
    (v : Var) (hv : v ∈ avs) :
    ∃ dsv1 r i, dsv.find v = some (dsv1, r) ∧ UFGood dsv1 avs ∧
      (∀ j t, ReachesN V0.nodes j t → ReachesN dsv1.nodes j t) ∧
      V0.reference v = some i ∧ ReachesN V0.nodes i r := by
  obtain ⟨dsv1, r, hfind, hg1, hpres, i, href, hreach⟩ :=
    ds_find_spec dsv avs hg v hv
  have hrefV0 : V0.reference v = dsv.reference v :=
    reference_congr (hgV0.1.trans hg.1.symm) v
  have hrefV : V0.reference v = some i := hrefV0.trans href
  obtain ⟨i0, hi0, hi0lt, _⟩ := reference_spec V0 avs hgV0.1 v hv
  have hii : i0 = i := Option.some.inj (hi0.symm.trans hrefV)
  rw [hii] at hi0lt
  obtain ⟨t0, ht0⟩ := hgV0.2.2 i hi0lt
  have ht0d : ReachesN dsv.nodes i t0 := hext i t0 ht0
  have hrt : r = t0 := reaches_unique hreach ht0d
  refine ⟨dsv1, r, i, hfind, hg1, fun j t h => hpres j t (hext j t h), hrefV, ?_⟩
  rw [hrt]
  exact ht0

/-- Specification of the inner loop of the atom-merging pass, relative to
the frozen post-loop1 variable state V0: for every atom of the slice
whose representative variable lies in the V0-class rooted at atom_1's
root r1, the loop unions it with atom_1. -/
lemma partition_loop2_inner_spec (avs : List Var) (tadata : List Atom)
    (V0 : DisjointSet Var) (hgV0 : UFGood V0 avs)
    (reprs : List (Atom × Var)) (atom_1 : Atom) (r1 : Nat)
    (ha1 : atom_1 ∈ tadata) :
    ∀ (l : List Atom) (dsv : DisjointSet Var) (dsa : DisjointSet Atom),
      UFGood dsv avs →
      (∀ j t, ReachesN V0.nodes j t → ReachesN dsv.nodes j t) →
      UFGood dsa tadata →
      (∀ a ∈ l, a ∈ tadata) →
      (∀ a ∈ l, ∃ v, repr_get reprs a = some v ∧ v ∈ avs) →
      ∃ dsv2 dsa2,
        partition_loop2_inner reprs atom_1 r1 l dsv dsa = some (dsv2, dsa2) ∧
        UFGood dsv2 avs ∧
        (∀ j t, ReachesN V0.nodes j t → ReachesN dsv2.nodes j t) ∧
        UFGood dsa2 tadata ∧
        (∀ a b, SameClass dsa a b → SameClass dsa2 a b) ∧
        (∀ a ∈ l, ∀ v i, repr_get reprs a = some v →
          V0.reference v = some i → ReachesN V0.nodes i r1 →
          SameClass dsa2 atom_1 a) := by
  intro l
  induction l with
  | nil =>
    intro dsv dsa hg hext hga _ _
    exact ⟨dsv, dsa, rfl, hg, hext, hga, fun a b h => h,
      fun a ha => absurd ha (by simp)⟩
  | cons atom_2 rest ih =>
    intro dsv dsa hg hext hga hmem hreprs
    obtain ⟨rv2, hrv2, hrv2avs⟩ := hreprs atom_2 (List.mem_cons_self _ _)
    obtain ⟨dsv1, r2, i2, hfind, hg1, hext1, hrefV0, hreachV0⟩ :=
      find_root_of_ext hgV0 hg hext rv2 hrv2avs
    by_cases hr : r1 = r2
    · obtain ⟨dsa1, hu, hga1, hmonoa, hpaira⟩ :=
        ds_union_spec dsa tadata hga atom_1 atom_2 ha1
          (hmem atom_2 (List.mem_cons_self _ _))
      obtain ⟨dsv2, dsa2, hres, hgf, hextf, hgaf, hmonof, hpairf⟩ :=
        ih dsv1 dsa1 hg1 hext1 hga1
          (fun a ha => hmem a (List.mem_cons_of_mem _ ha))
          (fun a ha => hreprs a (List.mem_cons_of_mem _ ha))
      refine ⟨dsv2, dsa2, ?_, hgf, hextf, hgaf,
        fun a b h => hmonof a b (hmonoa a b h), ?_⟩
      · show (match repr_get reprs atom_2 with
          | none => none
          | some rv2 =>
            match dsv.find rv2 with
            | none => none
            | some (dsv1, atom_2_repr) =>
              if r1 = atom_2_repr then
                match dsa.union atom_1 atom_2 with
                | none => none
                | some dsa1 =>
                  partition_loop2_inner reprs atom_1 r1 rest dsv1 dsa1
              else partition_loop2_inner reprs atom_1 r1 rest dsv1 dsa) = _
        rw [hrv2]
        show (match dsv.find rv2 with
          | none => none
          | some (dsv1, atom_2_repr) =>
            if r1 = atom_2_repr then
              match dsa.union atom_1 atom_2 with
              | none => none
              | some dsa1 =>
                partition_loop2_inner reprs atom_1 r1 rest dsv1 dsa1
            else partition_loop2_inner reprs atom_1 r1 rest dsv1 dsa) = _
        rw [hfind]
        show (if r1 = r2 then
            match dsa.union atom_1 atom_2 with
            | none => none
            | some dsa1 => partition_loop2_inner reprs atom_1 r1 rest dsv1 dsa1
          else partition_loop2_inner reprs atom_1 r1 rest dsv1 dsa) = _
        rw [if_pos hr, hu]
        exact hres
      · intro a ha v i hv hi hreach
        rcases List.mem_cons.mp ha with heq | ha2
        · rw [heq]
          exact hmonof atom_1 atom_2 hpaira
        · exact hpairf a ha2 v i hv hi hreach
    · obtain ⟨dsv2, dsa2, hres, hgf, hextf, hgaf, hmonof, hpairf⟩ :=
        ih dsv1 dsa hg1 hext1 hga
          (fun a ha => hmem a (List.mem_cons_of_mem _ ha))
          (fun a ha => hreprs a (List.mem_cons_of_mem _ ha))
      refine ⟨dsv2, dsa2, ?_, hgf, hextf, hgaf, hmonof, ?_⟩
      · show (match repr_get reprs atom_2 with
          | none => none
          | some rv2 =>
            match dsv.find rv2 with
            | none => none
            | some (dsv1, atom_2_repr) =>
              if r1 = atom_2_repr then
                match dsa.union atom_1 atom_2 with
                | none => none
                | some dsa1 =>
                  partition_loop2_inner reprs atom_1 r1 rest dsv1 dsa1
              else partition_loop2_inner reprs atom_1 r1 rest dsv1 dsa) = _
        rw [hrv2]
        show (match dsv.find rv2 with
          | none => none
          | some (dsv1, atom_2_repr) =>
            if r1 = atom_2_repr then
              match dsa.union atom_1 atom_2 with
              | none => none
              | some dsa1 =>
                partition_loop2_inner reprs atom_1 r1 rest dsv1 dsa1
            else partition_loop2_inner reprs atom_1 r1 rest dsv1 dsa) = _
        rw [hfind]
        show (if r1 = r2 then
            match dsa.union atom_1 atom_2 with
            | none => none
            | some dsa1 => partition_loop2_inner reprs atom_1 r1 rest dsv1 dsa1
          else partition_loop2_inner reprs atom_1 r1 rest dsv1 dsa) = _
        rw [if_neg hr]
        exact hres
      · intro a ha v i hv hi hreach
        rcases List.mem_cons.mp ha with heq | ha2
        · exfalso
          rw [heq] at hv
          have hveq : v = rv2 := Option.some.inj (hv.symm.trans hrv2)
          rw [hveq] at hi
          have hieq : i = i2 := Option.some.inj (hi.symm.trans hrefV0)
          rw [hieq] at hreach
          exact hr (reaches_unique hreach hreachV0)
        · exact hpairf a ha2 v i hv hi hreach

/-- Specification of the outer loop of the atom-merging pass: it unions
every later atom whose representative variable lies in the same V0-class
as the current atom's representative. -/
lemma partition_loop2_spec (avs : List Var) (tadata : List Atom)
    (V0 : DisjointSet Var) (hgV0 : UFGood V0 avs)
    (reprs : List (Atom × Var)) (atoms : List Atom)
    (hall : ∀ a ∈ atoms, ∃ v, repr_get reprs a = some v ∧ v ∈ avs)
    (hmem : ∀ a ∈ atoms, a ∈ tadata) :
    ∀ (tas : List Atom) (index : Nat) (dsv : DisjointSet Var)
      (dsa : DisjointSet Atom),
      atoms.drop index = tas →
      UFGood dsv avs →
      (∀ j t, ReachesN V0.nodes j t → ReachesN dsv.nodes j t) →
      UFGood dsa tadata →
      ∃ dsv2 dsa2,
        partition_loop2 reprs atoms index tas dsv dsa = some (dsv2, dsa2) ∧
        UFGood dsa2 tadata ∧
        (∀ a b, SameClass dsa a b → SameClass dsa2 a b) ∧
        (∀ p q a1 a2 v1 v2 i1 i2, index ≤ p → p < q →
          atoms.get? p = some a1 → atoms.get? q = some a2 →
          repr_get reprs a1 = some v1 → repr_get reprs a2 = some v2 →
          V0.reference v1 = some i1 → V0.reference v2 = some i2 →
          SameRootN V0.nodes i1 i2 →
          SameClass dsa2 a1 a2) := by
  intro tas
  induction tas with
  | nil =>
    intro index dsv dsa hdrop hg hext hga
    refine ⟨dsv, dsa, rfl, hga, fun a b h => h, ?_⟩
    intro p q a1 a2 v1 v2 i1 i2 hip hpq hget1 _ _ _ _ _ _
    exfalso
    have hlen : atoms.length ≤ index := List.drop_eq_nil_iff_le.mp hdrop
    have : atoms.get? p = none := List.get?_eq_none.mpr (by omega)
    rw [this] at hget1
    exact Option.noConfusion hget1
  | cons atom_1 tas' ih =>
    intro index dsv dsa hdrop hg hext hga
    have hget1 : atoms.get? index = some atom_1 := drop_cons_get? hdrop
    have hdrop' : atoms.drop (index + 1) = tas' := drop_cons_drop hdrop
    have hmem1 : atom_1 ∈ atoms := List.get?_mem hget1
    obtain ⟨rv1, hrv1, hrv1avs⟩ := hall atom_1 hmem1
    obtain ⟨dsvA, r1, iA, hfindA, hgA, hextA, hrefA, hreachA⟩ :=
      find_root_of_ext hgV0 hg hext rv1 hrv1avs
    obtain ⟨dsvB, dsaB, hresInner, hgB, hextB, hgaB, hmonoB, hpairB⟩ :=
      partition_loop2_inner_spec avs tadata V0 hgV0 reprs atom_1 r1
        (hmem atom_1 hmem1) (atoms.drop (index + 1)) dsvA dsa hgA hextA hga
        (fun a ha => hmem a (List.mem_of_mem_drop ha))
        (fun a ha => hall a (List.mem_of_mem_drop ha))
    obtain ⟨dsv2, dsa2, hres, hga2, hmono2, hpairs2⟩ :=
      ih (index + 1) dsvB dsaB hdrop' hgB hextB hgaB
    refine ⟨dsv2, dsa2, ?_, hga2, fun a b h => hmono2 a b (hmonoB a b h), ?_⟩
    · show (match repr_get reprs atom_1 with
        | none => none
        | some rv1 =>
          match dsv.find rv1 with
          | none => none
          | some (dsv1, atom_1_repr) =>
            match partition_loop2_inner reprs atom_1 atom_1_repr
                (atoms.drop (index + 1)) dsv1 dsa with
            | none => none
            | some (dsv2, dsa1) =>
              partition_loop2 reprs atoms (index + 1) tas' dsv2 dsa1) = _
      rw [hrv1]
      show (match dsv.find rv1 with
        | none => none
        | some (dsv1, atom_1_repr) =>
          match partition_loop2_inner reprs atom_1 atom_1_repr
              (atoms.drop (index + 1)) dsv1 dsa with
          | none => none
          | some (dsv2, dsa1) =>
            partition_loop2 reprs atoms (index + 1) tas' dsv2 dsa1) = _
      rw [hfindA]
      show (match partition_loop2_inner reprs atom_1 r1
          (atoms.drop (index + 1)) dsvA dsa with
        | none => none
        | some (dsv2, dsa1) =>
          partition_loop2 reprs atoms (index + 1) tas' dsv2 dsa1) = _
      rw [hresInner]
      exact hres
    · intro p q a1 a2 v1 v2 i1 i2 hip hpq hget1' hget2' hrep1 hrep2 href1
        href2 hsr
      by_cases hpind : index = p
      · have ha1eq : a1 = atom_1 := by
          rw [← hpind] at hget1'
          exact Option.some.inj (hget1'.symm.trans hget1)
        have hv1eq : v1 = rv1 := by
          rw [ha1eq] at hrep1
          exact Option.some.inj (hrep1.symm.trans hrv1)
        have hi1eq : i1 = iA := by
          rw [hv1eq] at href1
          exact Option.some.inj (href1.symm.trans hrefA)
        obtain ⟨r0, hr0a, hr0b⟩ := hsr
        rw [hi1eq] at hr0a
        have hr0 : r0 = r1 := reaches_unique hr0a hreachA
        rw [hr0] at hr0b
        have hmemdrop : a2 ∈ atoms.drop (index + 1) :=
          get?_mem_drop (by omega) hget2'
        have hsc : SameClass dsaB atom_1 a2 :=
          hpairB a2 hmemdrop v2 i2 hrep2 href2 hr0b
        rw [ha1eq]
        exact hmono2 atom_1 a2 hsc
      · exact hpairs2 p q a1 a2 v1 v2 i1 i2 (by omega) hpq hget1' hget2'
          hrep1 hrep2 href1 href2 hsr

/-- Core run of get_atom_partitioning on a formula all of whose atoms
carry at least one free variable: both loops succeed, the singleton tail
for non-theory atoms is empty, and the resulting atom disjoint-set
relates two atoms whenever their representative variables share a
variable class. -/
lemma get_atom_partitioning_core (phi : Fml)
    (hfv : ∀ a ∈ get_atoms phi, a.free_variables ≠ []) :
    ∃ (dsv1 : DisjointSet Var) (reprs : List (Atom × Var))
      (dsa2 : DisjointSet Atom),
      get_atom_partitioning phi = some (dsa2.get_sets.map Prod.snd) ∧
      UFGood dsv1 (get_free_variables phi) ∧
      UFGood dsa2 (get_atoms phi) ∧
      (∀ a ∈ get_atoms phi, ∃ v, repr_get reprs a = some v ∧
        v ∈ a.free_variables) ∧
      (∀ a ∈ get_atoms phi, ∀ v ∈ a.free_variables, ∀ w ∈ a.free_variables,
        SameClass dsv1 v w) ∧
      (∀ p q a1 a2 v1 v2, p < q →
        (get_atoms phi).get? p = some a1 → (get_atoms phi).get? q = some a2 →
        repr_get reprs a1 = some v1 → repr_get reprs a2 = some v2 →
        SameClass dsv1 v1 v2 → SameClass dsa2 a1 a2) := by
  have hvars : ∀ a ∈ get_atoms phi, ∀ v ∈ a.free_variables,
      v ∈ get_free_variables phi := mem_free_vars_all phi
  have hfilter : (get_atoms phi).filter
      (fun a => decide (a.free_variables ≠ [])) = get_atoms phi :=
    List.filter_eq_self.mpr (fun a ha => by simpa using hfv a ha)
  obtain ⟨dsv1, radd, hres1, hg1, _, hkeys, hval, hcls⟩ :=
    partition_loop1_spec (get_free_variables phi) (get_atoms phi)
      (DisjointSet.init (get_free_variables phi)) [] []
      (init_good (get_free_variables phi)) hvars
  rw [hfilter] at hres1 hkeys
  rw [List.nil_append, List.nil_append] at hres1
  have hrepr : ∀ a ∈ get_atoms phi, ∃ v, repr_get radd a = some v ∧
      v ∈ a.free_variables := by
    intro a ha
    obtain ⟨v, hv, hmemv⟩ := repr_get_of_keys radd a (by rw [hkeys]; exact ha)
    exact ⟨v, hv, hval (a, v) hmemv⟩
  have hall : ∀ a ∈ get_atoms phi, ∃ v, repr_get radd a = some v ∧
      v ∈ get_free_variables phi := by
    intro a ha
    obtain ⟨v, hv, hva⟩ := hrepr a ha
    exact ⟨v, hv, hvars a ha v hva⟩
  obtain ⟨dsv2, dsa2, hres2, hga2, _, hpairs⟩ :=
    partition_loop2_spec (get_free_variables phi) (get_atoms phi) dsv1 hg1
      radd (get_atoms phi) hall (fun a ha => ha) (get_atoms phi) 0 dsv1
      (DisjointSet.init (get_atoms phi)) (List.drop_zero _) hg1
      (fun j t h => h) (init_good (get_atoms phi))
  have hfn : (get_atoms phi).filter
      (fun a => decide (a ∉ get_atoms phi)) = [] :=
    List.filter_eq_nil.mpr (fun a ha => by simp [ha])
  refine ⟨dsv1, radd, dsa2, ?_, hg1, hga2, hrepr, hcls, ?_⟩
  · show (match partition_loop1 (get_atoms phi)
        (DisjointSet.init (get_free_variables phi)) [] [] with
      | none => none
      | some (dsv1, theory_atoms, reprs) =>
        match partition_loop2 reprs (get_atoms phi) 0 theory_atoms dsv1
            (DisjointSet.init theory_atoms) with
        | none => none
        | some (_, dsa1) =>
          some ((dsa1.get_sets.map Prod.snd) ++
            ((get_atoms phi).filter
              (fun a => decide (a ∉ theory_atoms))).map (fun a => [a]))) = _
    rw [hres1]
    show (match partition_loop2 radd (get_atoms phi) 0 (get_atoms phi) dsv1
        (DisjointSet.init (get_atoms phi)) with
      | none => none
      | some (_, dsa1) =>
        some ((dsa1.get_sets.map Prod.snd) ++
          ((get_atoms phi).filter
            (fun a => decide (a ∉ get_atoms phi))).map (fun a => [a]))) = _
    rw [hres2]
    show some ((dsa2.get_sets.map Prod.snd) ++
        ((get_atoms phi).filter
          (fun a => decide (a ∉ get_atoms phi))).map (fun a => [a])) = _
    rw [hfn, List.map_nil, List.append_nil]
  · intro p q a1 a2 v1 v2 hpq hget1 hget2 hrep1 hrep2 hsc
    obtain ⟨i1, i2, href1, href2, hsr⟩ := hsc
    exact hpairs p q a1 a2 v1 v2 i1 i2 (Nat.zero_le p) hpq hget1 hget2
      hrep1 hrep2 href1 href2 hsr

/-- get_sets of a well-formed disjoint set over duplicate-free data is a
partition: the member sets are positionally disjoint, their union is the
data, and two data of one class always lie in the same member set. -/
lemma get_sets_partition {α : Type} [DecidableEq α] (ds : DisjointSet α)
    (data : List α) (hg : UFGood ds data) (hnd : data.Nodup) :
    (∀ p q sp sq, p ≠ q →
      (ds.get_sets.map Prod.snd).get? p = some sp →
      (ds.get_sets.map Prod.snd).get? q = some sq →
      ∀ x ∈ sp, x ∉ sq) ∧
    (∀ d, (∃ s ∈ ds.get_sets.map Prod.snd, d ∈ s) ↔ d ∈ data) ∧
    (∀ d1 d2, SameClass ds d1 d2 → ∀ s ∈ ds.get_sets.map Prod.snd,
      d1 ∈ s → d2 ∈ s) := by
  obtain ⟨HK, HV, H3, H4, H5⟩ :=
    uf_get_sets_go_spec ds.nodes hg.2.2 (List.range ds.nodes.length)
      ds.nodes [] rfl rfl hg.2.1 (fun j t h => h)
      (fun i hi => List.mem_range.mp hi) (by simp) (by simp)
  have hSL : ds.get_sets =
      uf_get_sets_go (List.range ds.nodes.length) ds.nodes [] := rfl
  rw [← hSL] at HK HV H3 H4 H5
  have hgetD : ∀ i d, dataD ds.nodes i = some d ↔ data.get? i = some d := by
    intro i d
    rw [dataD_eq, hg.1]
  have hsrc : ∀ r s, sets_get ds.get_sets r = some s → ∀ d ∈ s,
      ∃ i, data.get? i = some d ∧ ReachesN ds.nodes i r := by
    intro r s h d hd
    rcases H4 r s h d hd with ⟨s0, hs0, _⟩ | ⟨i, _, hdd, hre⟩
    · exact absurd hs0 (by simp [sets_get])
    · exact ⟨i, (hgetD i d).mp hdd, hre⟩
  have hentry : ∀ {p : Nat} {e : Nat × List α}, ds.get_sets.get? p = some e →
      sets_get ds.get_sets e.1 = some e.2 := by
    intro p e hp
    have hmem : e ∈ ds.get_sets := List.get?_mem hp
    have hmem2 : (e.1, e.2) ∈ ds.get_sets := by
      rw [Prod.mk.eta]
      exact hmem
    exact (sets_get_mem ds.get_sets HK e.1 e.2).mp hmem2
  refine ⟨?_, ?_, ?_⟩
  · intro p q sp sq hpq hp hq x hxp hxq
    rw [List.get?_map] at hp hq
    cases hep : ds.get_sets.get? p with
    | none =>
      rw [hep] at hp
      exact Option.noConfusion hp
    | some ep =>
      cases heq : ds.get_sets.get? q with
      | none =>
        rw [heq] at hq
        exact Option.noConfusion hq
      | some eq2 =>
        rw [hep] at hp
        rw [heq] at hq
        have hspe : ep.2 = sp := Option.some.inj hp
        have hsqe : eq2.2 = sq := Option.some.inj hq
        obtain ⟨i, hgi, hri⟩ := hsrc ep.1 ep.2 (hentry hep) x (hspe ▸ hxp)
        obtain ⟨i', hgi', hri'⟩ := hsrc eq2.1 eq2.2 (hentry heq) x (hsqe ▸ hxq)
        have hii : i = i' := nodup_get?_inj hnd hgi hgi'
        rw [hii] at hri
        have hroots : ep.1 = eq2.1 := reaches_unique hri hri'
        have hkp : (ds.get_sets.map Prod.fst).get? p = some ep.1 := by
          rw [List.get?_map, hep]
          rfl
        have hkq : (ds.get_sets.map Prod.fst).get? q = some ep.1 := by
          rw [List.get?_map, heq, hroots]
          rfl
        exact hpq (nodup_get?_inj HK hkp hkq)
  · intro d
    constructor
    · rintro ⟨s, hs, hds⟩
      obtain ⟨e, he, hes⟩ := List.mem_map.mp hs
      have hmem2 : (e.1, e.2) ∈ ds.get_sets := by
        rw [Prod.mk.eta]
        exact he
      have hsg : sets_get ds.get_sets e.1 = some e.2 :=
        (sets_get_mem ds.get_sets HK e.1 e.2).mp hmem2
      obtain ⟨i, hgi, _⟩ := hsrc e.1 e.2 hsg d (hes ▸ hds)
      exact List.get?_mem hgi
    · intro hd
      have hd2 : d ∈ ds.nodes.map (·.data) := by
        rw [hg.1]
        exact hd
      obtain ⟨ia, hia⟩ := List.get?_of_mem hd2
      have hialt : ia < ds.nodes.length := by
        obtain ⟨h1, _⟩ := List.get?_eq_some.mp hia
        rw [List.length_map] at h1
        exact h1
      obtain ⟨r, s2, _, hsg2, d', hdd', hd's2⟩ :=
        H5 ia (List.mem_range.mpr hialt)
      have hdd : d' = d := by
        rw [dataD_eq] at hdd'
        exact Option.some.inj (hdd'.symm.trans hia)
      have hmem2 : (r, s2) ∈ ds.get_sets :=
        (sets_get_mem ds.get_sets HK r s2).mpr hsg2
      exact ⟨s2, List.mem_map.mpr ⟨(r, s2), hmem2, rfl⟩, hdd ▸ hd's2⟩
  · intro d1 d2 hsc s hs hd1s
    obtain ⟨j1, j2, href1, href2, r0, hr1, hr2⟩ := hsc
    have hd2mem : d2 ∈ data := by
      have href2' : last_index_from 0 (ds.nodes.map (·.data)) d2 = some j2 :=
        href2
      have := last_index_some_mem (ds.nodes.map (·.data)) d2 0 j2 href2'
      rw [hg.1] at this
      exact this
    obtain ⟨j2', hj2', hj2lt, hdd2⟩ := reference_spec ds data hg.1 d2 hd2mem
    have hj2e : j2' = j2 := Option.some.inj (hj2'.symm.trans href2)
    rw [hj2e] at hj2lt hdd2
    have hd1mem : d1 ∈ data := by
      have href1' : last_index_from 0 (ds.nodes.map (·.data)) d1 = some j1 :=
        href1
      have := last_index_some_mem (ds.nodes.map (·.data)) d1 0 j1 href1'
      rw [hg.1] at this
      exact this
    obtain ⟨j1', hj1', hj1lt, hdd1⟩ := reference_spec ds data hg.1 d1 hd1mem
    have hj1e : j1' = j1 := Option.some.inj (hj1'.symm.trans href1)
    rw [hj1e] at hj1lt hdd1
    obtain ⟨e, he, hes⟩ := List.mem_map.mp hs
    have hmem2 : (e.1, e.2) ∈ ds.get_sets := by
      rw [Prod.mk.eta]
      exact he
    have hsg : sets_get ds.get_sets e.1 = some e.2 :=
      (sets_get_mem ds.get_sets HK e.1 e.2).mp hmem2
    obtain ⟨i, hgi, hri⟩ := hsrc e.1 e.2 hsg d1 (hes ▸ hd1s)
    have hie : i = j1 := nodup_get?_inj hnd hgi ((hgetD j1 d1).mp hdd1)
    rw [hie] at hri
    have he1r0 : e.1 = r0 := reaches_unique hri hr1
    obtain ⟨r', s2, hre', hsg2, d', hdd', hd's2⟩ :=
      H5 j2 (List.mem_range.mpr hj2lt)
    have hdd : d' = d2 := by
      rw [hdd2] at hdd'
      exact (Option.some.inj hdd').symm
    have hr'r0 : r' = r0 := reaches_unique hre' hr2
    rw [hr'r0, ← he1r0] at hsg2
    have hs2e : s2 = e.2 := Option.some.inj (hsg2.symm.trans hsg)
    rw [← hes, ← hs2e]
    exact hdd ▸ hd's2

/-- C5 (amended).  The claim's unrestricted "for every normalized
formula" fails: on a formula mixing a variable-free atom with theory
atoms the source's second loop raises KeyError, because it slices the
full atom list while representative variables exist only for theory
atoms (see the counterexample below).  Amended to the domain on which
the loops do define a partition: for every formula phi all of whose
atoms carry at least one free variable, get_atom_partitioning succeeds
and returns sets of atoms that are pairwise disjoint, whose union is
exactly the atoms of phi, and such that any two atoms sharing a free
variable — directly or transitively through a chain of sharing atoms of
phi — land in the same set. -/
theorem tdd_c5_atom_partitioning (phi : Fml)
    (hfv : ∀ a ∈ get_atoms phi, a.free_variables ≠ []) :
    ∃ sets, get_atom_partitioning phi = some sets ∧
      (∀ p q sp sq, p ≠ q → sets.get? p = some sp → sets.get? q = some sq →
        ∀ x ∈ sp, x ∉ sq) ∧
      (∀ a, (∃ s ∈ sets, a ∈ s) ↔ a ∈ get_atoms phi) ∧
      (∀ a b, Relation.ReflTransGen
          (fun x y => x ∈ get_atoms phi ∧ y ∈ get_atoms phi ∧
            ∃ v, v ∈ x.free_variables ∧ v ∈ y.free_variables) a b →
        ∀ s ∈ sets, a ∈ s → b ∈ s) := by
  obtain ⟨dsv1, reprs, dsa2, hmain, hg1, hga2, hrepr, hcls, hpairs⟩ :=
    get_atom_partitioning_core phi hfv
  obtain ⟨hdisj, hunion, hsame⟩ :=
    get_sets_partition dsa2 (get_atoms phi) hga2 (get_atoms_nodup phi)
  refine ⟨dsa2.get_sets.map Prod.snd, hmain, hdisj, hunion, ?_⟩
  have hdirect : ∀ x y, x ∈ get_atoms phi → y ∈ get_atoms phi →
      (∃ v, v ∈ x.free_variables ∧ v ∈ y.free_variables) →
      ∀ s ∈ dsa2.get_sets.map Prod.snd, x ∈ s → y ∈ s := by
    rintro x y hx hy ⟨v, hvx, hvy⟩ s hs hxs
    by_cases hxy : x = y
    · rw [← hxy]
      exact hxs
    · obtain ⟨vx, hvxr, hvxm⟩ := hrepr x hx
      obtain ⟨vy, hvyr, hvym⟩ := hrepr y hy
      have hscv : SameClass dsv1 vx vy :=
        same_class_trans (hcls x hx vx hvxm v hvx) (hcls y hy v hvy vy hvym)
      obtain ⟨px, hpx⟩ := List.get?_of_mem hx
      obtain ⟨py, hpy⟩ := List.get?_of_mem hy
      have hsca : SameClass dsa2 x y := by
        rcases Nat.lt_trichotomy px py with hlt | heqp | hgt
        · exact hpairs px py x y vx vy hlt hpx hpy hvxr hvyr hscv
        · exfalso
          rw [heqp] at hpx
          exact hxy (Option.some.inj (hpx.symm.trans hpy))
        · exact same_class_symm (hpairs py px y x vy vx hgt hpy hpx hvyr
            hvxr (same_class_symm hscv))
      exact hsame x y hsca s hs hxs
  intro a b hrt
  induction hrt with
  | refl => exact fun s _ ha => ha
  | tail hab hbc ih =>
    exact fun s hs ha => hdirect _ _ hbc.1 hbc.2.1 hbc.2.2 s hs (ih s hs ha)

theorem tdd_c5_atom_partitioning_witness :
    (∀ a ∈ get_atoms (Fml.conj [Fml.atom (Atom.mk 0 [5]),
        Fml.atom (Atom.mk 1 [5]), Fml.atom (Atom.mk 2 [7])]),
      a.free_variables ≠ []) ∧
    ∃ sets, get_atom_partitioning (Fml.conj [Fml.atom (Atom.mk 0 [5]),
        Fml.atom (Atom.mk 1 [5]), Fml.atom (Atom.mk 2 [7])]) = some sets ∧
      (∀ p q sp sq, p ≠ q → sets.get? p = some sp → sets.get? q = some sq →
        ∀ x ∈ sp, x ∉ sq) ∧
      (∀ a, (∃ s ∈ sets, a ∈ s) ↔ a ∈ get_atoms (Fml.conj
        [Fml.atom (Atom.mk 0 [5]), Fml.atom (Atom.mk 1 [5]),
          Fml.atom (Atom.mk 2 [7])])) ∧
      (∀ a b, Relation.ReflTransGen
          (fun x y => x ∈ get_atoms (Fml.conj [Fml.atom (Atom.mk 0 [5]),
              Fml.atom (Atom.mk 1 [5]), Fml.atom (Atom.mk 2 [7])]) ∧
            y ∈ get_atoms (Fml.conj [Fml.atom (Atom.mk 0 [5]),
              Fml.atom (Atom.mk 1 [5]), Fml.atom (Atom.mk 2 [7])]) ∧
            ∃ v, v ∈ x.free_variables ∧ v ∈ y.free_variables) a b →
        ∀ s ∈ sets, a ∈ s → b ∈ s) :=
  ⟨by decide, tdd_c5_atom_partitioning (Fml.conj [Fml.atom (Atom.mk 0 [5]),
    Fml.atom (Atom.mk 1 [5]), Fml.atom (Atom.mk 2 [7])]) (by decide)⟩

/-- C5 (counterexample to the unrestricted claim).  On a formula mixing
a theory atom (free variable 5) with a variable-free atom, the first
loop records a representative variable only for the theory atom, but the
second loop walks the slice atoms[index + 1:] of the FULL atom list, so
its lookup atoms_repr_vars[atom_2] hits the variable-free atom and
raises KeyError (the embedding's none): get_atom_partitioning fails
instead of returning any partition, refuting the claim for this
normalized conjunction. -/
theorem tdd_c5_atom_partitioning_counterexample :
    get_atom_partitioning
      (Fml.conj [Fml.atom (Atom.mk 0 [5]), Fml.atom (Atom.mk 1 [])]) =
      none := by
  decide
